import Mathlib

/-!
Verification of the ALICE-Settlement core (netting, clearing, margin,
waterfall, journal replay) against its natural-language specification.

The Rust source is shallowly embedded: machine integers are modelled as
`Nat`/`Int` with explicit two's-complement wrapping (`wrap64`, `wrap128`)
at every operation where Rust release-mode arithmetic wraps, hash maps are
modelled as insertion-ordered association lists (iteration order of the
Rust HashMap is unspecified; the claims proved here are order-insensitive
or are about one fixed order), and `&mut self` methods become functions
from state to state.
-/

namespace AliceSettlement

/-- Smallest `i64` value, as an integer. -/
def i64Min : ℤ := -(2 ^ 63)

/-- Largest `i64` value, as an integer. -/
def i64Max : ℤ := 2 ^ 63 - 1

/-- Largest `u64` value. -/
def u64Max : ℕ := 2 ^ 64 - 1

/-- Two's-complement wrap into the signed 64-bit range: the value a Rust
release build stores in an `i64` after an overflowing operation. -/
def wrap64 (v : ℤ) : ℤ := (v + 2 ^ 63) % 2 ^ 64 - 2 ^ 63

/-- Two's-complement wrap into the signed 128-bit range (`i128`). -/
def wrap128 (v : ℤ) : ℤ := (v + 2 ^ 127) % 2 ^ 128 - 2 ^ 127

/-- Truncating cast of an `i128` value to `u64` (Rust `as u64`). -/
def castU64 (v : ℤ) : ℕ := (v % 2 ^ 64).toNat

/-- Wrapping `u64` subtraction (Rust release-mode `a - b` on `u64`). -/
def wrapU64sub (a b : ℕ) : ℕ := if b ≤ a then a - b else a + 2 ^ 64 - b

/-- Saturating `i64` addition (Rust `i64::saturating_add`). -/
def saturating_add (a b : ℤ) : ℤ := max i64Min (min i64Max (a + b))

/-- Saturating `i64` subtraction (Rust `i64::saturating_sub`). -/
def saturating_sub (a b : ℤ) : ℤ := max i64Min (min i64Max (a - b))

/-- `saturating_i128_to_i64` (netting.rs): clamp an `i128` into `i64` range. -/
def saturating_i128_to_i64 (v : ℤ) : ℤ := max i64Min (min i64Max v)

/-- The FNV-1a 64-bit offset basis. -/
def fnvOffset : ℕ := 0xcbf29ce484222325

/-- The FNV-1a 64-bit prime. -/
def fnvPrime : ℕ := 0x100000001b3

/-- One FNV-1a step: xor in a byte, then 64-bit wrapping multiply. -/
def fnv1aStep (h b : ℕ) : ℕ := ((h ^^^ b) * fnvPrime) % 2 ^ 64

/-- `fnv1a` (lib.rs): 64-bit FNV-1a over a byte sequence. -/
def fnv1a (data : List ℕ) : ℕ := data.foldl fnv1aStep fnvOffset

/-- Little-endian byte decomposition of a `u64` (`to_le_bytes`). -/
def u64LEBytes (v : ℕ) : List ℕ := (List.range 8).map fun i => v / 256 ^ i % 256

/-- Little-endian byte decomposition of an `i64` (`to_le_bytes` of the
two's-complement representation). -/
def i64LEBytes (v : ℤ) : List ℕ := u64LEBytes ((v % 2 ^ 64).toNat)

-- ── Trade types (trade.rs) ─────────────────────────────────────────────

/-- Settlement lifecycle state for a trade (trade.rs). -/
inductive SettlementStatus
  | Pending
  | Netted
  | Cleared
  | Settled
  | Failed
deriving DecidableEq

/-- A confirmed trade between two counterparties (trade.rs). -/
structure Trade where
  trade_id : ℕ
  symbol_hash : ℕ
  buyer_id : ℕ
  seller_id : ℕ
  price : ℤ
  quantity : ℕ
  timestamp_ns : ℕ
  status : SettlementStatus
deriving DecidableEq

/-- Field ranges enforced by the Rust types: `price` is an `i64` and
`quantity` a `u64`. -/
def ValidTrade (t : Trade) : Prop :=
  i64Min ≤ t.price ∧ t.price ≤ i64Max ∧ t.quantity ≤ u64Max

instance (t : Trade) : Decidable (ValidTrade t) := by
  unfold ValidTrade; infer_instance

-- ── Bilateral netting (netting.rs) ─────────────────────────────────────

/-- Net obligation between two counterparties for a single symbol. -/
structure NetObligation where
  symbol_hash : ℕ
  deliverer_id : ℕ
  receiver_id : ℕ
  net_quantity : ℕ
  net_payment : ℤ
  trade_count : ℕ
deriving DecidableEq

/-- Key for grouping bilateral trade flows per symbol; always stored as
(min id, max id). -/
structure NettingKey where
  symbol_hash : ℕ
  lo_id : ℕ
  hi_id : ℕ
deriving DecidableEq

/-- Per-key accumulator tracking net position: signed 128-bit quantity and
payment, plus a `u32` trade count. -/
structure NettingAccumulator where
  net_quantity_signed : ℤ
  net_payment_signed : ℤ
  trade_count : ℕ
deriving DecidableEq

/-- The all-zero accumulator (Rust `Default`). -/
def defaultAccumulator : NettingAccumulator := ⟨0, 0, 0⟩

/-- The accumulator map of the netting engine, as an insertion-ordered
association list (the Rust HashMap, whose iteration order is unspecified;
we fix first-insertion order). -/
abbrev NettingState := List (NettingKey × NettingAccumulator)

/-- `canonical_pair` (netting.rs): the (lo, hi) ordering of a pair. -/
def canonical_pair (a b : ℕ) : ℕ × ℕ := if a ≤ b then (a, b) else (b, a)

/-- HashMap `entry(key).or_default()` followed by an in-place update:
modify the first entry with the given key, or append a freshly updated
default entry if the key is absent. -/
def updateAcc (s : NettingState) (k : NettingKey)
    (f : NettingAccumulator → NettingAccumulator) : NettingState :=
  match s with
  | [] => [(k, f defaultAccumulator)]
  | (k₀, a₀) :: rest =>
    if k₀ = k then (k₀, f a₀) :: rest else (k₀, a₀) :: updateAcc rest k f

/-- Look up the accumulator stored for a key (default if absent). -/
def lookupAcc (s : NettingState) (k : NettingKey) : NettingAccumulator :=
  match s with
  | [] => defaultAccumulator
  | (k₀, a₀) :: rest => if k₀ = k then a₀ else lookupAcc rest k

/-- The in-place accumulator update performed by `add_trade`: bump the
`u32` trade count, then add or subtract the quantity and the `i128`
payment product depending on whether the buyer is the lo id.  Wrapping is
applied exactly where the Rust release-mode arithmetic wraps. -/
def tradeUpdate (t : Trade) (acc₀ : NettingAccumulator) : NettingAccumulator :=
  let acc := { acc₀ with trade_count := (acc₀.trade_count + 1) % 2 ^ 32 }
  let qty : ℤ := (t.quantity : ℤ)
  let payment := wrap128 (t.price * qty)
  if t.buyer_id = (canonical_pair t.buyer_id t.seller_id).1 then
    { acc with
      net_quantity_signed := wrap128 (acc.net_quantity_signed + qty),
      net_payment_signed := wrap128 (acc.net_payment_signed + payment) }
  else
    { acc with
      net_quantity_signed := wrap128 (acc.net_quantity_signed - qty),
      net_payment_signed := wrap128 (acc.net_payment_signed - payment) }

/-- `NettingEngine::add_trade`: accumulate one trade at its canonical
(symbol, lo, hi) key. -/
def add_trade (s : NettingState) (t : Trade) : NettingState :=
  let p := canonical_pair t.buyer_id t.seller_id
  updateAcc s ⟨t.symbol_hash, p.1, p.2⟩ (tradeUpdate t)

/-- `NettingEngine::compute_net`: emit one obligation per accumulator with
non-zero signed quantity; sign determines direction; quantity is cast to
`u64` and payment saturated into `i64`. -/
def compute_net (s : NettingState) : List NetObligation :=
  s.filterMap fun e =>
    let k := e.1
    let acc := e.2
    if acc.net_quantity_signed = 0 then none
    else if 0 < acc.net_quantity_signed then
      some ⟨k.symbol_hash, k.hi_id, k.lo_id,
            castU64 acc.net_quantity_signed,
            saturating_i128_to_i64 acc.net_payment_signed, acc.trade_count⟩
    else
      some ⟨k.symbol_hash, k.lo_id, k.hi_id,
            castU64 (wrap128 (-acc.net_quantity_signed)),
            saturating_i128_to_i64 (wrap128 (-acc.net_payment_signed)),
            acc.trade_count⟩

/-- Run the netting engine from empty over a list of trades. -/
def netRun (ts : List Trade) : NettingState := ts.foldl add_trade []

-- ── Spec-side payment accounting (the functions named by the claims) ───

/-- signed_payment of an account in a single trade, as the specification
defines it: the buyer (receiver) is credited with price·quantity, the
seller (deliverer) is debited. -/
def signed_payment_trade (a : ℕ) (t : Trade) : ℤ :=
  (if t.buyer_id = a then t.price * (t.quantity : ℤ) else 0)
    - (if t.seller_id = a then t.price * (t.quantity : ℤ) else 0)

/-- signed_payment of an account in a net obligation: the receiver is
credited with net_payment, the deliverer debited. -/
def signed_payment_ob (a : ℕ) (o : NetObligation) : ℤ :=
  (if o.receiver_id = a then o.net_payment else 0)
    - (if o.deliverer_id = a then o.net_payment else 0)

/-- Sum of signed payments of an account over a list of trades. -/
def tradePaySum (a : ℕ) (ts : List Trade) : ℤ :=
  (ts.map (signed_payment_trade a)).sum

/-- Sum of signed payments of an account over a list of obligations. -/
def obPaySum (a : ℕ) (obs : List NetObligation) : ℤ :=
  (obs.map (signed_payment_ob a)).sum

/-- Contribution of one accumulator entry to an account's signed payment
balance: the stored signed payment is from lo's point of view. -/
def accContrib (a : ℕ) (k : NettingKey) (acc : NettingAccumulator) : ℤ :=
  (if k.lo_id = a then acc.net_payment_signed else 0)
    - (if k.hi_id = a then acc.net_payment_signed else 0)

/-- Signed payment balance of an account over the whole accumulator map. -/
def statePaySum (a : ℕ) (s : NettingState) : ℤ :=
  (s.map fun e => accContrib a e.1 e.2).sum

/-- Does accumulating this trade stay within `i128` range (so that no
wrap occurs in `add_trade`)?  Checks the payment product and the two
running sums. -/
def inI128 (v : ℤ) : Bool := decide (-(2 ^ 127) ≤ v) && decide (v ≤ 2 ^ 127 - 1)

/-- One accumulation step of `add_trade` performs no `i128` overflow. -/
def stepInRange (s : NettingState) (t : Trade) : Bool :=
  let p := canonical_pair t.buyer_id t.seller_id
  let acc := lookupAcc s ⟨t.symbol_hash, p.1, p.2⟩
  let qty : ℤ := (t.quantity : ℤ)
  let payment := t.price * qty
  inI128 payment &&
    (if t.buyer_id = p.1 then
      inI128 (acc.net_quantity_signed + qty) && inI128 (acc.net_payment_signed + payment)
    else
      inI128 (acc.net_quantity_signed - qty) && inI128 (acc.net_payment_signed - payment))

/-- No accumulation step along the trade list overflows `i128`. -/
def noAccOverflow : NettingState → List Trade → Bool
  | _, [] => true
  | s, t :: ts => stepInRange s t && noAccOverflow (add_trade s t) ts

-- ── Multilateral netting (netting.rs) ──────────────────────────────────

/-- Adjacency map deliverer → list of (receiver, obligation index), as an
insertion-ordered association list (the Rust HashMap in `find_cycle`). -/
abbrev Adj := List (ℕ × List (ℕ × ℕ))

/-- Edge list of a node in the adjacency map (empty when absent, matching
the skipped `if let Some` in the Rust DFS). -/
def lookupAdj (adj : Adj) (n : ℕ) : List (ℕ × ℕ) :=
  match adj with
  | [] => []
  | (k, es) :: rest => if k = n then es else lookupAdj rest n

/-- `entry(deliverer).or_default().push(edge)` on the adjacency map. -/
def adjPush (adj : Adj) (d : ℕ) (e : ℕ × ℕ) : Adj :=
  match adj with
  | [] => [(d, [e])]
  | (k, es) :: rest =>
    if k = d then (k, es ++ [e]) :: rest else (k, es) :: adjPush rest d e

/-- Build the adjacency map from the obligations, indexing edges by their
position; only obligations with positive quantity become edges. -/
def buildAdjAux (i : ℕ) (obs : List NetObligation) (adj : Adj) : Adj :=
  match obs with
  | [] => adj
  | ob :: rest =>
    buildAdjAux (i + 1) rest
      (if 0 < ob.net_quantity then adjPush adj ob.deliverer_id (ob.receiver_id, i)
       else adj)

/-- Adjacency map of an obligation list (`find_cycle`, first phase). -/
def buildAdj (obs : List NetObligation) : Adj := buildAdjAux 0 obs []

/-- Try each outgoing edge in order; on success prepend the edge index.
This is the edge loop of `dfs_find_cycle` with the push/pop bookkeeping of
`path_edges` expressed by the returned suffix. -/
def tryEdges (es : List (ℕ × ℕ)) (rec : ℕ → Option (List ℕ)) : Option (List ℕ) :=
  match es with
  | [] => none
  | (next, i) :: rest =>
    match rec next with
    | some l => some (i :: l)
    | none => tryEdges rest rec

/-- `dfs_find_cycle` (netting.rs): DFS from current back to target.  A
failed Rust call removes from `visited` exactly what it inserted, so the
by-value `visited` here is the same set the Rust code sees at each step.
The fuel argument only bounds the recursion depth; the depth is at most
the number of distinct nodes, so the callers below always pass enough. -/
def dfs_find_cycle (adj : Adj) (target : ℕ) :
    ℕ → List ℕ → ℕ → Bool → Option (List ℕ)
  | 0, _, _, _ => none
  | fuel + 1, visited, current, is_start =>
    if is_start = false ∧ current = target then some []
    else if current ∈ visited then none
    else
      tryEdges (lookupAdj adj current) fun next =>
        dfs_find_cycle adj target fuel (current :: visited) next false

/-- Try each start node in order (the start loop of `find_cycle`). -/
def tryStarts (adj : Adj) (fuel : ℕ) : List ℕ → Option (List ℕ)
  | [] => none
  | start :: rest =>
    match dfs_find_cycle adj start fuel [] start true with
    | some l => some l
    | none => tryStarts adj fuel rest

/-- `find_cycle` (netting.rs): indices of the obligations forming a cycle
in the deliverer → receiver graph, if one exists. -/
def find_cycle (obs : List NetObligation) : Option (List ℕ) :=
  let adj := buildAdj obs
  tryStarts adj (2 * obs.length + 2) (adj.map Prod.fst)

/-- Fallback obligation for out-of-range indexing (the Rust code only
indexes with positions returned by `find_cycle`, which are in range). -/
def dOb : NetObligation := ⟨0, 0, 0, 0, 0, 0⟩

/-- Minimum of a list (Rust `Iterator::min`). -/
def listMin : List ℕ → Option ℕ
  | [] => none
  | x :: xs =>
    match listMin xs with
    | none => some x
    | some m => some (min x m)

/-- The per-edge update of `cancel_cycle`: subtract the minimum quantity
and reduce the payment proportionally, with the intermediate product in
`i128` and truncating division, each narrowing cast wrapping as in Rust. -/
def reduceOb (m : ℕ) (ob : NetObligation) : NetObligation :=
  let newQty := wrapU64sub ob.net_quantity m
  if 0 < ob.net_quantity then
    let payment_reduction :=
      wrap64 (Int.tdiv (wrap128 (ob.net_payment * (m : ℤ))) (ob.net_quantity : ℤ))
    { ob with net_quantity := newQty,
              net_payment := wrap64 (ob.net_payment - payment_reduction) }
  else { ob with net_quantity := newQty }

/-- `cancel_cycle` (netting.rs): subtract the minimum edge weight around
the cycle, reducing each payment proportionally. -/
def cancel_cycle (obs : List NetObligation) (idxs : List ℕ) : List NetObligation :=
  let min_qty := (listMin (idxs.map fun i => (obs.getD i dOb).net_quantity)).getD 0
  if min_qty = 0 then obs
  else idxs.foldl (fun cur i => cur.set i (reduceOb min_qty (cur.getD i dOb))) obs

/-- Total gross quantity of a list of obligations. -/
def sumQty (obs : List NetObligation) : ℕ := (obs.map NetObligation.net_quantity).sum

/-- The repeat-until-no-cycle loop of `multilateral_net`.  Each
cancellation strictly decreases the total gross quantity, so the loop in
the Rust source terminates; the fuel passed below exceeds that quantity
and is therefore never exhausted. -/
def cancelLoop : ℕ → List NetObligation → List NetObligation
  | 0, obs => obs
  | fuel + 1, obs =>
    match find_cycle obs with
    | none => obs
    | some idxs => cancelLoop fuel (cancel_cycle obs idxs)

/-- `entry(symbol).or_default().push(ob)` for the per-symbol partition. -/
def groupPush (g : List (ℕ × List NetObligation)) (s : ℕ) (ob : NetObligation) :
    List (ℕ × List NetObligation) :=
  match g with
  | [] => [(s, [ob])]
  | (k, l) :: rest =>
    if k = s then (k, l ++ [ob]) :: rest else (k, l) :: groupPush rest s ob

/-- Partition obligations by symbol (insertion-ordered association list). -/
def groupBySymbol (obs : List NetObligation) : List (ℕ × List NetObligation) :=
  obs.foldl (fun g ob => groupPush g ob.symbol_hash ob) []

/-- `multilateral_net` (netting.rs): per symbol, repeatedly cancel cycles,
then drop obligations reduced to zero quantity. -/
def multilateral_net (obligations : List NetObligation) : List NetObligation :=
  ((groupBySymbol obligations).map fun e =>
    (cancelLoop (sumQty e.2 + 1) e.2).filter fun ob => 0 < ob.net_quantity).flatten

/-- Contribution of one obligation to an account's net payment balance
(incoming where receiver, outgoing where deliverer). -/
def payContrib (a : ℕ) (ob : NetObligation) : ℤ :=
  (if ob.receiver_id = a then ob.net_payment else 0)
    - (if ob.deliverer_id = a then ob.net_payment else 0)

/-- Net payment balance of an account over an obligation list. -/
def pay_balance (a : ℕ) (obs : List NetObligation) : ℤ :=
  (obs.map (payContrib a)).sum

/-- Contribution of one obligation to an account's net quantity balance. -/
def qtyContrib (a : ℕ) (ob : NetObligation) : ℤ :=
  (if ob.receiver_id = a then (ob.net_quantity : ℤ) else 0)
    - (if ob.deliverer_id = a then (ob.net_quantity : ℤ) else 0)

/-- Net quantity balance of an account over an obligation list. -/
def qty_balance (a : ℕ) (obs : List NetObligation) : ℤ :=
  (obs.map (qtyContrib a)).sum

-- ── Clearing house (clearing.rs) ───────────────────────────────────────

/-- Account balance for clearing. -/
structure ClearingAccount where
  account_id : ℕ
  balance : ℤ
  margin_held : ℤ
deriving DecidableEq

/-- Error returned when clearing an obligation fails. -/
inductive ClearingError
  | AccountNotFound (id : ℕ)
  | InsufficientBalance (account_id : ℕ) (required : ℤ) (available : ℤ)
deriving DecidableEq

/-- The clearing house account map (HashMap account id → account). -/
abbrev ClearingHouse := ℕ → Option ClearingAccount

/-- An empty clearing house. -/
def emptyCH : ClearingHouse := fun _ => none

/-- `ClearingHouse::register_account`: insert or replace, margin reset. -/
def register_account (ch : ClearingHouse) (id : ℕ) (initial_balance : ℤ) :
    ClearingHouse :=
  fun k => if k = id then some ⟨id, initial_balance, 0⟩ else ch k

/-- `get_mut` followed by a balance mutation (no-op if absent, matching
the `if let Some` in the source). -/
def updateBalance (ch : ClearingHouse) (id : ℕ) (f : ℤ → ℤ) : ClearingHouse :=
  fun k =>
    if k = id then (ch k).map fun acc => { acc with balance := f acc.balance }
    else ch k

/-- `ClearingHouse::clear_obligation`: existence checks on both accounts,
then the balance pre-check, then debit deliverer and credit receiver.
Balance arithmetic is `i64` (wrapping in a release build).  The returned
state is the account map after the call; every early-exit error path
returns it untouched, as in the source where all returns precede any
mutation. -/
def clear_obligation (ch : ClearingHouse) (ob : NetObligation) :
    ClearingHouse × Option ClearingError :=
  match ch ob.deliverer_id with
  | none => (ch, some (.AccountNotFound ob.deliverer_id))
  | some _ =>
    match ch ob.receiver_id with
    | none => (ch, some (.AccountNotFound ob.receiver_id))
    | some _ =>
      let deliverer_balance :=
        match ch ob.deliverer_id with
        | some acc => acc.balance
        | none => 0
      if deliverer_balance < ob.net_payment then
        (ch, some (.InsufficientBalance ob.deliverer_id ob.net_payment
          deliverer_balance))
      else
        let ch₁ := updateBalance ch ob.deliverer_id fun b => wrap64 (b - ob.net_payment)
        let ch₂ := updateBalance ch₁ ob.receiver_id fun b => wrap64 (b + ob.net_payment)
        (ch₂, none)

-- ── Margin engine (margin.rs) ──────────────────────────────────────────

/-- Margin configuration.  The Rust rates are `f64`; each expression of
the form (x as f64 * rate) as i64 is embedded as an uninterpreted total
function on integers, and the claims are proved for every such function,
which subsumes the IEEE-754 behaviour.  Stress scenarios likewise become
one shock function each. -/
structure MarginConfig where
  initial_margin_rate : ℤ → ℤ
  variation_margin_rate : ℤ → ℤ
  stress_scenarios : List (ℤ → ℤ)
  margin_floor : ℤ

/-- Computed margin requirement for an account. -/
structure MarginRequirement where
  account_id : ℕ
  initial_margin : ℤ
  variation_margin : ℤ
  stress_margin : ℤ
  total_margin : ℤ
  content_hash : ℕ

/-- `net_payment.unsigned_abs() as i64` (margin.rs line 79): the absolute
value computed in `u64`, then cast back to `i64` (which wraps for
`i64::MIN`). -/
def obligation_notional (p : ℤ) : ℤ := wrap64 (p.natAbs : ℤ)

/-- `i64::abs` as a release build computes it (wraps at `i64::MIN`; a
debug build panics there instead). -/
def i64_abs (p : ℤ) : ℤ := wrap64 (p.natAbs : ℤ)

/-- `MarginEngine::worst_case_stress`: worst absolute shock loss over the
scenarios, via the branchless maximum of the source. -/
def worst_case_stress (cfg : MarginConfig) (notional : ℤ) : ℤ :=
  cfg.stress_scenarios.foldl
    (fun worst scenario =>
      let shocked := scenario notional
      let loss := i64_abs (wrap64 (shocked - notional))
      let gt : ℤ := if worst < loss then 1 else 0
      gt * loss + (1 - gt) * worst)
    0

/-- `hash_requirement` (margin.rs): FNV-1a over account id and total. -/
def hash_requirement (account_id : ℕ) (total : ℤ) : ℕ :=
  fnv1a (u64LEBytes account_id ++ i64LEBytes total)

/-- `MarginEngine::compute_obligation_margin`. -/
def compute_obligation_margin (cfg : MarginConfig) (ob : NetObligation) :
    MarginRequirement :=
  let notional := obligation_notional ob.net_payment
  let initial := cfg.initial_margin_rate notional
  let variation := cfg.variation_margin_rate notional
  let stress := worst_case_stress cfg notional
  let base := saturating_add initial variation
  let total := max (max base stress) cfg.margin_floor
  ⟨ob.deliverer_id, initial, variation, stress, total,
   hash_requirement ob.deliverer_id total⟩

/-- The exposure accumulation loop of `compute_portfolio_margin`:
(total_notional, net_exposure) with saturating sums; the `abs` is the
release-mode `i64::abs` (a debug build panics at `i64::MIN`). -/
def portfolio_exposures (account_id : ℕ) (obs : List NetObligation) : ℤ × ℤ :=
  obs.foldl
    (fun tn ob =>
      if ob.deliverer_id = account_id then
        (saturating_add tn.1 (i64_abs ob.net_payment),
         saturating_sub tn.2 ob.net_payment)
      else if ob.receiver_id = account_id then
        (saturating_add tn.1 (i64_abs ob.net_payment),
         saturating_add tn.2 ob.net_payment)
      else tn)
    (0, 0)

/-- `MarginEngine::compute_portfolio_margin`. -/
def compute_portfolio_margin (cfg : MarginConfig) (account_id : ℕ)
    (obs : List NetObligation) : MarginRequirement :=
  let e := portfolio_exposures account_id obs
  let initial := cfg.initial_margin_rate e.1
  let variation := cfg.variation_margin_rate ((e.2.natAbs : ℤ))
  let stress := worst_case_stress cfg e.1
  let base := saturating_add initial variation
  let total := max (max base stress) cfg.margin_floor
  ⟨account_id, initial, variation, stress, total,
   hash_requirement account_id total⟩

-- ── Default waterfall (waterfall.rs) ───────────────────────────────────

/-- The five layers of the default waterfall, in order. -/
inductive WaterfallLayer
  | DefaulterMargin
  | DefaulterFund
  | CcpFirstLoss
  | MembersFund
  | CcpCapital
deriving DecidableEq

/-- Per-layer absorption result. -/
structure LayerAbsorption where
  layer : WaterfallLayer
  capacity : ℤ
  absorbed : ℤ
  remaining_after : ℤ
deriving DecidableEq

/-- Waterfall configuration: capacity (`i64`) per layer. -/
structure WaterfallConfig where
  defaulter_margin : ℤ
  defaulter_fund : ℤ
  ccp_first_loss : ℤ
  members_fund : ℤ
  ccp_capital : ℤ
deriving DecidableEq

/-- Result of running a loss through the waterfall. -/
structure WaterfallResult where
  total_loss : ℤ
  total_absorbed : ℤ
  layers : List LayerAbsorption
  fully_covered : Bool
  shortfall : ℤ
  content_hash : ℕ
deriving DecidableEq

/-- The capacities array of `absorb_loss`, in waterfall order. -/
def capacitiesOf (cfg : WaterfallConfig) : List (WaterfallLayer × ℤ) :=
  [(.DefaulterMargin, cfg.defaulter_margin),
   (.DefaulterFund, cfg.defaulter_fund),
   (.CcpFirstLoss, cfg.ccp_first_loss),
   (.MembersFund, cfg.members_fund),
   (.CcpCapital, cfg.ccp_capital)]

/-- `compute_hash` (waterfall.rs): FNV-1a over loss and absorbed. -/
def waterfall_hash (loss absorbed : ℤ) : ℕ :=
  fnv1a (i64LEBytes loss ++ i64LEBytes absorbed)

/-- One layer of the absorption loop: absorb min(remaining, capacity);
the subtraction is `i64` arithmetic. -/
def absorbStep (st : ℤ × List LayerAbsorption) (lc : WaterfallLayer × ℤ) :
    ℤ × List LayerAbsorption :=
  let remaining := st.1
  let absorbed := if remaining ≤ lc.2 then remaining else lc.2
  let remaining' := wrap64 (remaining - absorbed)
  (remaining', st.2 ++ [⟨lc.1, lc.2, absorbed, remaining'⟩])

/-- `zero_result` (waterfall.rs): the result for a non-positive loss. -/
def zero_result (cfg : WaterfallConfig) (loss : ℤ) : WaterfallResult :=
  ⟨loss, 0,
   (capacitiesOf cfg).map fun lc => ⟨lc.1, lc.2, 0, 0⟩,
   true, 0, waterfall_hash loss 0⟩

/-- `DefaultWaterfall::absorb_loss`. -/
def absorb_loss (cfg : WaterfallConfig) (loss : ℤ) : WaterfallResult :=
  if loss ≤ 0 then zero_result cfg loss
  else
    let st := (capacitiesOf cfg).foldl absorbStep (loss, [])
    let total_absorbed := wrap64 (loss - st.1)
    ⟨loss, total_absorbed, st.2, decide (st.1 = 0), st.1,
     waterfall_hash loss total_absorbed⟩

/-- `DefaultWaterfall::total_capacity`: saturating sum of capacities. -/
def total_capacity (cfg : WaterfallConfig) : ℤ :=
  saturating_add
    (saturating_add
      (saturating_add (saturating_add cfg.defaulter_margin cfg.defaulter_fund)
        cfg.ccp_first_loss)
      cfg.members_fund)
    cfg.ccp_capital

-- ── Journal (journal.rs) and replay (replay.rs) ────────────────────────

/-- Events recordable in the settlement journal; the failure reason string
is embedded as its byte sequence (only its bytes are ever consumed). -/
inductive JournalEvent
  | TradeReceived (trade_id : ℕ)
  | NettingCompleted (obligation_count : ℕ)
  | ClearingAttempted (obligation_count success_count fail_count : ℕ)
  | SettlementCompleted (trade_count : ℕ)
  | SettlementFailed (trade_id : ℕ) (reason : List ℕ)
deriving DecidableEq

/-- A settlement journal entry. -/
structure JournalEntry where
  sequence : ℕ
  timestamp_ns : ℕ
  event : JournalEvent
deriving DecidableEq

/-- Append-only settlement journal. -/
structure SettlementJournal where
  entries : List JournalEntry
  next_seq : ℕ
deriving DecidableEq

/-- `SettlementJournal::new`. -/
def newJournal : SettlementJournal := ⟨[], 1⟩

/-- `SettlementJournal::record`: assign the next sequence and append. -/
def record (j : SettlementJournal) (timestamp_ns : ℕ) (event : JournalEvent) :
    SettlementJournal :=
  ⟨j.entries ++ [⟨j.next_seq, timestamp_ns, event⟩], (j.next_seq + 1) % 2 ^ 64⟩

/-- A single step in a replay log. -/
structure ReplayStep where
  sequence : ℕ
  timestamp_ns : ℕ
  event_kind : ℕ
  content_hash : ℕ
deriving DecidableEq

/-- A discrepancy found during replay verification. -/
structure ReplayDiscrepancy where
  sequence : ℕ
  expected_hash : ℕ
  actual_hash : ℕ
deriving DecidableEq

/-- Result of verifying two replay logs against each other. -/
structure ReplayResult where
  steps_verified : ℕ
  discrepancies : List ReplayDiscrepancy
  success : Bool
  content_hash : ℕ
deriving DecidableEq

/-- `ReplayVerifier::event_kind_byte`. -/
def event_kind_byte : JournalEvent → ℕ
  | .TradeReceived _ => 0
  | .NettingCompleted _ => 1
  | .ClearingAttempted _ _ _ => 2
  | .SettlementCompleted _ => 3
  | .SettlementFailed _ _ => 4

/-- `ReplayVerifier::event_payload`: the single `u64` payload. -/
def event_payload : JournalEvent → ℕ
  | .TradeReceived trade_id => trade_id
  | .NettingCompleted obligation_count => obligation_count % 2 ^ 64
  | .ClearingAttempted oc sc fc =>
    ((oc % 2 ^ 64) <<< 32) % 2 ^ 64 ||| ((sc % 2 ^ 64) <<< 16) % 2 ^ 64
      ||| fc % 2 ^ 64
  | .SettlementCompleted trade_count => trade_count % 2 ^ 64
  | .SettlementFailed trade_id reason => trade_id ^^^ fnv1a reason

/-- `step_hash` (replay.rs): FNV-1a over the 25-byte step encoding. -/
def step_hash (sequence timestamp_ns kind payload : ℕ) : ℕ :=
  fnv1a (u64LEBytes sequence ++ u64LEBytes timestamp_ns ++ [kind]
    ++ u64LEBytes payload)

/-- `ReplayVerifier::build_replay_log`. -/
def build_replay_log (journal : SettlementJournal) : List ReplayStep :=
  journal.entries.map fun entry =>
    let kind := event_kind_byte entry.event
    let payload := event_payload entry.event
    ⟨entry.sequence, entry.timestamp_ns, kind,
     step_hash entry.sequence entry.timestamp_ns kind payload⟩

/-- The index loop of `verify`: discrepancies in order, and the count of
matching steps, over the common prefix of the two logs. -/
def verifyScan : List ReplayStep → List ReplayStep → List ReplayDiscrepancy × ℕ
  | e :: es, a :: as =>
    let rest := verifyScan es as
    if e.content_hash ≠ a.content_hash then
      (⟨e.sequence, e.content_hash, a.content_hash⟩ :: rest.1, rest.2)
    else (rest.1, rest.2 + 1)
  | _, _ => ([], 0)

/-- `result_hash` (replay.rs). -/
def result_hash (verified discrepancy_count : ℕ) : ℕ :=
  fnv1a (u64LEBytes verified ++ u64LEBytes discrepancy_count)

/-- `ReplayVerifier::verify`. -/
def verify (expected actual : List ReplayStep) : ReplayResult :=
  let scan := verifyScan expected actual
  let min_len := min expected.length actual.length
  let discrepancies :=
    if expected.length ≠ actual.length then
      let seq :=
        if 0 < min_len then
          ((expected.getD (min_len - 1) ⟨0, 0, 0, 0⟩).sequence + 1) % 2 ^ 64
        else 1
      scan.1 ++ [⟨seq, expected.length % 2 ^ 64, actual.length % 2 ^ 64⟩]
    else scan.1
  ⟨scan.2, discrepancies, discrepancies.isEmpty,
   result_hash scan.2 discrepancies.length⟩

/-- `ReplayVerifier::compute_journal_hash`: chained step hashes. -/
def compute_journal_hash (journal : SettlementJournal) : ℕ :=
  journal.entries.foldl
    (fun cumulative entry =>
      let kind := event_kind_byte entry.event
      let payload := event_payload entry.event
      let step_h := step_hash entry.sequence entry.timestamp_ns kind payload
      fnv1a (u64LEBytes cumulative ++ u64LEBytes step_h))
    fnvOffset

-- ── Concrete instances used by counterexamples and witnesses ───────────

/-- Margin configuration with both rates 1.0, no stress scenarios and a
zero floor: for these inputs the float path (x as f64 * 1.0) as i64 is
exact, so the identity function embeds it. -/
def cfgUnit : MarginConfig := ⟨fun x => x, fun x => x, [], 0⟩

/-- A clearing house holding the maximal `i64` balance on account 1. -/
def chOverflow : ClearingHouse :=
  register_account (register_account emptyCH 1 i64Max) 2 0

/-- An obligation with payment −1 from account 1 to account 2. -/
def obNegOne : NetObligation := ⟨1, 1, 2, 1, -1, 1⟩

/-- An obligation whose payment is `i64::MIN`. -/
def obPayMin : NetObligation := ⟨1, 1, 2, 1, i64Min, 1⟩

/-- Trade 1 buys 10 at 100 from 2. -/
def c1TradeA : Trade := ⟨1, 7, 1, 2, 100, 10, 0, .Pending⟩

/-- Trade 2 buys the same 10 back at 50. -/
def c1TradeB : Trade := ⟨2, 7, 2, 1, 50, 10, 0, .Pending⟩

/-- A trade whose buyer and seller coincide. -/
def selfTrade : Trade := ⟨1, 7, 5, 5, 10, 3, 0, .Pending⟩

/-- Cycle edge 100 → 200 with payment 1000. -/
def cycleObsA : NetObligation := ⟨1, 100, 200, 10, 1000, 1⟩

/-- Cycle edge 200 → 300 with payment 500. -/
def cycleObsB : NetObligation := ⟨1, 200, 300, 10, 500, 1⟩

/-- Cycle edge 300 → 100 with payment 0. -/
def cycleObsC : NetObligation := ⟨1, 300, 100, 10, 0, 1⟩

/-- Waterfall configuration with every capacity set to `i64::MIN`. -/
def wfNegCfg : WaterfallConfig := ⟨i64Min, i64Min, i64Min, i64Min, i64Min⟩

/-- Waterfall configuration with one negative capacity. -/
def wfNegOneCfg : WaterfallConfig := ⟨-1, 50, 30, 200, 500⟩

/-- The small waterfall configuration of the specification scenarios. -/
def wfSmallCfg : WaterfallConfig := ⟨100, 50, 30, 200, 500⟩

/-- Fallback layer record for indexing. -/
def dLayer : LayerAbsorption := ⟨.DefaulterMargin, 0, 0, 0⟩

/-- Chained layer accounting: each layer's remaining_after is the previous
remaining minus its own absorbed amount, starting from a given value. -/
def ChainFrom : ℤ → List LayerAbsorption → Prop
  | _, [] => True
  | r, la :: rest => la.remaining_after = r - la.absorbed ∧ ChainFrom la.remaining_after rest

/-- A path through the adjacency map from a node back to a target: the
first list collects the obligation indices of the edges, the second the
source node of each edge. -/
inductive AdjChain (adj : Adj) (target : ℕ) : ℕ → List ℕ → List ℕ → Prop
  | nil : AdjChain adj target target [] []
  | cons {c next i l ns} : (next, i) ∈ lookupAdj adj c →
      AdjChain adj target next l ns → AdjChain adj target c (i :: l) (c :: ns)

/-- What membership of an edge in the adjacency map built from an
obligation list means. -/
def EdgeSpec (obs : List NetObligation) (c n i : ℕ) : Prop :=
  i < obs.length ∧ 0 < (obs.getD i dOb).net_quantity ∧
    (obs.getD i dOb).deliverer_id = c ∧ (obs.getD i dOb).receiver_id = n

/-- Signed unit flow of an obligation seen from an account. -/
def unitFlow (a : ℕ) (ob : NetObligation) : ℤ :=
  (if ob.receiver_id = a then 1 else 0) - (if ob.deliverer_id = a then 1 else 0)

/-- Sum of a per-obligation value over the per-symbol groups. -/
def groupSum (f : NetObligation → ℤ) (g : List (ℕ × List NetObligation)) : ℤ :=
  (g.map fun e => (e.2.map f).sum).sum

-- ── Utility lemmas ─────────────────────────────────────────────────────

set_option maxRecDepth 100000

theorem wrap64_eq_self {v : ℤ} (h1 : i64Min ≤ v) (h2 : v ≤ i64Max) :
    wrap64 v = v := by
  unfold wrap64
  unfold i64Min at h1
  unfold i64Max at h2
  rw [Int.emod_eq_of_lt (by linarith) (by linarith)]
  ring

theorem wrap128_eq_self {v : ℤ} (h1 : -(2 ^ 127) ≤ v) (h2 : v ≤ 2 ^ 127 - 1) :
    wrap128 v = v := by
  unfold wrap128
  rw [Int.emod_eq_of_lt (by linarith) (by linarith)]
  ring

theorem sat64_eq_self {v : ℤ} (h1 : i64Min ≤ v) (h2 : v ≤ i64Max) :
    saturating_i128_to_i64 v = v := by
  unfold saturating_i128_to_i64
  omega

theorem inI128_bounds {v : ℤ} (h : inI128 v = true) :
    -(2 ^ 127) ≤ v ∧ v ≤ 2 ^ 127 - 1 := by
  unfold inI128 at h
  simp only [Bool.and_eq_true, decide_eq_true_eq] at h
  exact h

-- ── C8: replay determinism ─────────────────────────────────────────────

theorem verifyScan_self (L : List ReplayStep) : verifyScan L L = ([], L.length) := by
  induction L with
  | nil => rfl
  | cons e es ih => simp [verifyScan, ih]

/-- Claim C8: building a replay log is a pure function of the journal
entries, and verifying a log against itself succeeds with every step
verified and no discrepancies. -/
theorem C8_replay_determinism :
    (∀ j₁ j₂ : SettlementJournal, j₁.entries = j₂.entries →
      build_replay_log j₁ = build_replay_log j₂) ∧
    ∀ L : List ReplayStep,
      (verify L L).success = true ∧ (verify L L).steps_verified = L.length ∧
      (verify L L).discrepancies = [] := by
  constructor
  · intro j₁ j₂ h
    unfold build_replay_log
    rw [h]
  · intro L
    unfold verify
    simp [verifyScan_self]

/-- Witness for C8 at a concrete two-entry journal and its log. -/
theorem C8_replay_determinism_witness :
    build_replay_log ⟨[⟨1, 1000, .TradeReceived 42⟩], 5⟩
      = build_replay_log ⟨[⟨1, 1000, .TradeReceived 42⟩], 99⟩ ∧
    (verify (build_replay_log ⟨[⟨1, 1000, .TradeReceived 42⟩], 5⟩)
        (build_replay_log ⟨[⟨1, 1000, .TradeReceived 42⟩], 5⟩)).success = true ∧
    (verify (build_replay_log ⟨[⟨1, 1000, .TradeReceived 42⟩], 5⟩)
        (build_replay_log ⟨[⟨1, 1000, .TradeReceived 42⟩], 5⟩)).steps_verified
      = (build_replay_log ⟨[⟨1, 1000, .TradeReceived 42⟩], 5⟩).length ∧
    (verify (build_replay_log ⟨[⟨1, 1000, .TradeReceived 42⟩], 5⟩)
        (build_replay_log ⟨[⟨1, 1000, .TradeReceived 42⟩], 5⟩)).discrepancies = [] :=
  ⟨C8_replay_determinism.1 ⟨[⟨1, 1000, .TradeReceived 42⟩], 5⟩
      ⟨[⟨1, 1000, .TradeReceived 42⟩], 99⟩ rfl,
   (C8_replay_determinism.2 _).1, (C8_replay_determinism.2 _).2.1,
   (C8_replay_determinism.2 _).2.2⟩

-- ── C4: clear_obligation case analysis and atomicity ───────────────────

/-- Claim C4: clear_obligation fails AccountNotFound(deliverer) iff the
deliverer is absent, otherwise AccountNotFound(receiver) iff the receiver
is absent, otherwise InsufficientBalance iff the deliverer balance is
below net_payment; otherwise it debits the deliverer and credits the
receiver by net_payment (in i64 arithmetic) and succeeds.  Every failing
call leaves the account map untouched. -/
theorem C4_clear_obligation_spec (ch : ClearingHouse) (ob : NetObligation) :
    (((clear_obligation ch ob).2 = some (.AccountNotFound ob.deliverer_id)) ↔
      ch ob.deliverer_id = none) ∧
    (ch ob.deliverer_id ≠ none →
      (((clear_obligation ch ob).2 = some (.AccountNotFound ob.receiver_id)) ↔
        ch ob.receiver_id = none)) ∧
    (∀ accD, ch ob.deliverer_id = some accD → ch ob.receiver_id ≠ none →
      (((clear_obligation ch ob).2
          = some (.InsufficientBalance ob.deliverer_id ob.net_payment accD.balance)) ↔
        accD.balance < ob.net_payment)) ∧
    (∀ accD accR, ch ob.deliverer_id = some accD → ch ob.receiver_id = some accR →
      ¬ accD.balance < ob.net_payment →
      (clear_obligation ch ob).2 = none ∧
      (ob.deliverer_id ≠ ob.receiver_id →
        (clear_obligation ch ob).1 ob.deliverer_id
          = some { accD with balance := wrap64 (accD.balance - ob.net_payment) } ∧
        (clear_obligation ch ob).1 ob.receiver_id
          = some { accR with balance := wrap64 (accR.balance + ob.net_payment) }) ∧
      ∀ k, k ≠ ob.deliverer_id → k ≠ ob.receiver_id →
        (clear_obligation ch ob).1 k = ch k) ∧
    ((clear_obligation ch ob).2 ≠ none → (clear_obligation ch ob).1 = ch) := by
  rcases hd : ch ob.deliverer_id with _ | accD
  · have hc : clear_obligation ch ob = (ch, some (.AccountNotFound ob.deliverer_id)) := by
      simp [clear_obligation, hd]
    refine ⟨?_, ?_, ?_, ?_, ?_⟩
    · rw [hc]
      simp
    · intro h
      exact absurd rfl h
    · intro accD h
      exact absurd h (by simp)
    · intro accD accR h
      exact absurd h (by simp)
    · intro _
      rw [hc]
  · rcases hr : ch ob.receiver_id with _ | accR
    · have hc : clear_obligation ch ob = (ch, some (.AccountNotFound ob.receiver_id)) := by
        simp [clear_obligation, hd, hr]
      refine ⟨?_, ?_, ?_, ?_, ?_⟩
      · rw [hc]
        constructor
        · intro h
          simp only [Prod.snd, Option.some.injEq, ClearingError.AccountNotFound.injEq] at h
          rw [h] at hr
          rw [hd] at hr
          exact hr
        · intro h
          exact absurd h (by simp)
      · intro _
        rw [hc]
        simp
      · intro accD' h hrn
        exact absurd rfl hrn
      · intro accD' accR' h1 h2
        exact absurd h2 (by simp)
      · intro _
        rw [hc]
    · by_cases hb : accD.balance < ob.net_payment
      · have hc : clear_obligation ch ob
            = (ch, some (.InsufficientBalance ob.deliverer_id ob.net_payment
                accD.balance)) := by
          simp [clear_obligation, hd, hr, hb]
        refine ⟨?_, ?_, ?_, ?_, ?_⟩
        · rw [hc]
          simp
        · intro _
          rw [hc]
          simp
        · intro accD' h _
          injection h with h
          subst h
          rw [hc]
          simp [hb]
        · intro accD' accR' h1 h2 h3
          injection h1 with h1
          subst h1
          exact absurd hb h3
        · intro _
          rw [hc]
      · have hc : clear_obligation ch ob
            = (updateBalance (updateBalance ch ob.deliverer_id
                  fun b => wrap64 (b - ob.net_payment))
                ob.receiver_id fun b => wrap64 (b + ob.net_payment), none) := by
          simp [clear_obligation, hd, hr, hb]
        refine ⟨?_, ?_, ?_, ?_, ?_⟩
        · rw [hc]
          simp
        · intro _
          rw [hc]
          simp
        · intro accD' h _
          injection h with h
          subst h
          rw [hc]
          simp [hb]
        · intro accD' accR' h1 h2 _
          injection h1 with h1
          injection h2 with h2
          subst h1
          subst h2
          rw [hc]
          refine ⟨rfl, ?_, ?_⟩
          · intro hne
            have hrd : ob.receiver_id ≠ ob.deliverer_id := Ne.symm hne
            constructor
            · simp [updateBalance, hne, hd]
            · simp [updateBalance, hrd, hr]
          · intro k hk1 hk2
            simp [updateBalance, hk1, hk2]
        · rw [hc]
          intro h
          exact absurd rfl h

/-- Witness for C4 at a concrete two-account clearing house. -/
theorem C4_clear_obligation_spec_witness :
    (clear_obligation (register_account (register_account emptyCH 1 100) 2 50)
        ⟨7, 1, 2, 1, 30, 1⟩).2 = none ∧
    (clear_obligation (register_account (register_account emptyCH 1 100) 2 50)
        ⟨7, 1, 2, 1, 30, 1⟩).1 1 = some ⟨1, 70, 0⟩ ∧
    (clear_obligation (register_account (register_account emptyCH 1 100) 2 50)
        ⟨7, 1, 2, 1, 30, 1⟩).1 2 = some ⟨2, 80, 0⟩ := by
  have h := (C4_clear_obligation_spec
    (register_account (register_account emptyCH 1 100) 2 50) ⟨7, 1, 2, 1, 30, 1⟩).2.2.2.1
    ⟨1, 100, 0⟩ ⟨2, 50, 0⟩ (by decide) (by decide) (by decide)
  refine ⟨h.1, ?_, ?_⟩
  · rw [(h.2.1 (by decide)).1]
    decide
  · rw [(h.2.1 (by decide)).2]
    decide

-- ── C10: negative-payment obligations clear in reverse ─────────────────

/-- Claim C10: with both accounts registered and a negative net_payment,
clear_obligation succeeds whenever the deliverer balance is at least
net_payment (so in particular whenever it is non-negative), and the
transfer runs backwards: the deliverer gains and the receiver loses the
payment's absolute value (in i64 arithmetic). -/
theorem C10_negative_payment_reverse_transfer (ch : ClearingHouse)
    (ob : NetObligation) (accD accR : ClearingAccount)
    (hd : ch ob.deliverer_id = some accD) (hr : ch ob.receiver_id = some accR)
    (hne : ob.deliverer_id ≠ ob.receiver_id) (hneg : ob.net_payment < 0)
    (hbal : ob.net_payment ≤ accD.balance) :
    (clear_obligation ch ob).2 = none ∧
    (clear_obligation ch ob).1 ob.deliverer_id
      = some { accD with
          balance := wrap64 (accD.balance + (ob.net_payment.natAbs : ℤ)) } ∧
    (clear_obligation ch ob).1 ob.receiver_id
      = some { accR with
          balance := wrap64 (accR.balance - (ob.net_payment.natAbs : ℤ)) } := by
  have hb : ¬ accD.balance < ob.net_payment := not_lt.mpr hbal
  have habs : ((ob.net_payment.natAbs : ℤ)) = -ob.net_payment :=
    Int.ofNat_natAbs_of_nonpos (le_of_lt hneg)
  have hrd : ob.receiver_id ≠ ob.deliverer_id := Ne.symm hne
  have hc : clear_obligation ch ob
      = (updateBalance (updateBalance ch ob.deliverer_id
            fun b => wrap64 (b - ob.net_payment))
          ob.receiver_id fun b => wrap64 (b + ob.net_payment), none) := by
    simp [clear_obligation, hd, hr, hb]
  rw [hc]
  refine ⟨rfl, ?_, ?_⟩
  · simp [updateBalance, hne, hd, habs, sub_eq_add_neg]
  · simp [updateBalance, hrd, hr, habs, sub_eq_add_neg]

/-- Witness for C10: a zero-balance deliverer clears a −5 payment. -/
theorem C10_negative_payment_reverse_transfer_witness :
    (clear_obligation (register_account (register_account emptyCH 1 0) 2 10)
        ⟨7, 1, 2, 1, -5, 1⟩).2 = none ∧
    (clear_obligation (register_account (register_account emptyCH 1 0) 2 10)
        ⟨7, 1, 2, 1, -5, 1⟩).1 1 = some ⟨1, 5, 0⟩ ∧
    (clear_obligation (register_account (register_account emptyCH 1 0) 2 10)
        ⟨7, 1, 2, 1, -5, 1⟩).1 2 = some ⟨2, 5, 0⟩ := by
  have h := C10_negative_payment_reverse_transfer
    (register_account (register_account emptyCH 1 0) 2 10) ⟨7, 1, 2, 1, -5, 1⟩
    ⟨1, 0, 0⟩ ⟨2, 10, 0⟩ (by decide) (by decide) (by decide) (by decide) (by decide)
  refine ⟨h.1, ?_, ?_⟩
  · rw [h.2.1]
    decide
  · rw [h.2.2]
    decide

-- ── C5: the no-panic claim fails on the code ───────────────────────────

/-- Claim C5 is violated by the code (code bug): at the recorded failing
inputs the release build wraps and a debug build panics.  Debiting a −1
payment from a deliverer holding `i64::MAX` overflows the i64 subtraction
(the balance wraps to `i64::MIN` instead of increasing), and the
portfolio-margin loop's `abs` of a `i64::MIN` net_payment overflows,
driving the running total notional negative. -/
theorem C5_no_panic_failing_inputs :
    (clear_obligation chOverflow obNegOne).2 = none ∧
    ((clear_obligation chOverflow obNegOne).1 1).map ClearingAccount.balance
      = some i64Min ∧
    i64Min ≠ i64Max - (-1) ∧
    (portfolio_exposures 1 [obPayMin]).1 = i64Min ∧
    (portfolio_exposures 1 [obPayMin]).1 < 0 := by
  decide

-- ── C9: per-obligation margin ──────────────────────────────────────────

/-- Claim C9 counterexample: at net_payment = i64::MIN the notional used
by compute_obligation_margin is the wrapped cast i64::MIN, which is
negative, not the absolute value; with unit rates this surfaces as a
negative initial margin. -/
theorem C9_margin_counterexample :
    obligation_notional i64Min = i64Min ∧ obligation_notional i64Min < 0 ∧
    (compute_obligation_margin cfgUnit obPayMin).initial_margin < 0 := by
  decide

/-- Claim C9 as amended: for every net_payment strictly above i64::MIN the
notional is the (non-negative) absolute value, and for every configuration
the total margin is the maximum of the saturating sum of initial and
variation margin, the stress margin, and the floor. -/
theorem C9_margin_amended (cfg : MarginConfig) (ob : NetObligation)
    (h1 : i64Min < ob.net_payment) (h2 : ob.net_payment ≤ i64Max) :
    obligation_notional ob.net_payment = |ob.net_payment| ∧
    0 ≤ obligation_notional ob.net_payment ∧
    (compute_obligation_margin cfg ob).total_margin
      = max (max (saturating_add (compute_obligation_margin cfg ob).initial_margin
            (compute_obligation_margin cfg ob).variation_margin)
          (compute_obligation_margin cfg ob).stress_margin) cfg.margin_floor := by
  have habs : ((ob.net_payment.natAbs : ℤ)) = |ob.net_payment| :=
    (Int.abs_eq_natAbs ob.net_payment).symm
  have hb1 : i64Min ≤ (ob.net_payment.natAbs : ℤ) := by
    have : (0 : ℤ) ≤ (ob.net_payment.natAbs : ℤ) := Int.ofNat_nonneg _
    have h0 : i64Min ≤ (0 : ℤ) := by decide
    exact le_trans h0 this
  have hb2 : (ob.net_payment.natAbs : ℤ) ≤ i64Max := by
    rw [habs]
    rw [abs_le]
    unfold i64Min at h1
    unfold i64Max at h2 ⊢
    constructor
    · linarith
    · exact h2
  have hnot : obligation_notional ob.net_payment = |ob.net_payment| := by
    unfold obligation_notional
    rw [wrap64_eq_self hb1 hb2, habs]
  refine ⟨hnot, ?_, rfl⟩
  rw [hnot]
  exact abs_nonneg _

/-- Witness for C9 at a concrete obligation and unit-rate configuration. -/
theorem C9_margin_amended_witness :
    obligation_notional (5000 : ℤ) = |(5000 : ℤ)| ∧
    0 ≤ obligation_notional (5000 : ℤ) ∧
    (compute_obligation_margin cfgUnit ⟨1, 1, 2, 10, 5000, 1⟩).total_margin
      = max (max (saturating_add
            (compute_obligation_margin cfgUnit ⟨1, 1, 2, 10, 5000, 1⟩).initial_margin
            (compute_obligation_margin cfgUnit ⟨1, 1, 2, 10, 5000, 1⟩).variation_margin)
          (compute_obligation_margin cfgUnit ⟨1, 1, 2, 10, 5000, 1⟩).stress_margin)
        cfgUnit.margin_floor :=
  C9_margin_amended cfgUnit ⟨1, 1, 2, 10, 5000, 1⟩ (by decide) (by decide)

-- ── Counterexamples for C1, C2, C3, C6, C7 ─────────────────────────────

/-- Claim C1 counterexample: two trades whose quantities offset exactly
but whose payments do not; the accumulator is skipped at emission and the
per-account payment sum is not conserved. -/
theorem C1_netting_conservation_counterexample :
    tradePaySum 1 [c1TradeA, c1TradeB] = 500 ∧
    obPaySum 1 (compute_net (netRun [c1TradeA, c1TradeB])) = 0 ∧
    tradePaySum 1 [c1TradeA, c1TradeB]
      ≠ obPaySum 1 (compute_net (netRun [c1TradeA, c1TradeB])) := by
  decide

/-- Claim C2 counterexample: cancelling the triangle 100→200 (1000),
200→300 (500), 300→100 (0) changes account 100's net payment balance
from −1000 to 0, because the per-edge proportional payment reductions
differ around the cycle. -/
theorem C2_payment_balance_counterexample :
    pay_balance 100 [cycleObsA, cycleObsB, cycleObsC] = -1000 ∧
    pay_balance 100 (multilateral_net [cycleObsA, cycleObsB, cycleObsC]) = 0 ∧
    pay_balance 100 (multilateral_net [cycleObsA, cycleObsB, cycleObsC])
      ≠ pay_balance 100 [cycleObsA, cycleObsB, cycleObsC] := by
  decide

/-- Claim C3 counterexample: a trade whose buyer and seller coincide emits
an obligation with deliverer = receiver. -/
theorem C3_obligation_invariants_counterexample :
    (compute_net (netRun [selfTrade])).length = 1 ∧
    ((compute_net (netRun [selfTrade])).getD 0 dOb).deliverer_id
      = ((compute_net (netRun [selfTrade])).getD 0 dOb).receiver_id := by
  decide

/-- Claim C6 counterexample: with capacities of `i64::MIN` the layer
subtractions wrap, and total_absorbed + shortfall no longer equals
max(loss, 0). -/
theorem C6_waterfall_accounting_counterexample :
    (absorb_loss wfNegCfg 1).total_absorbed + (absorb_loss wfNegCfg 1).shortfall
      ≠ max 1 0 := by
  decide

/-- Claim C7 counterexample: a negative capacity yields a negative
absorbed amount, and for a negative loss the first layer's remaining_after
is 0, not the presented loss minus absorbed. -/
theorem C7_layer_bounds_counterexample :
    ((absorb_loss wfNegOneCfg 1).layers.getD 0 dLayer).absorbed < 0 ∧
    ((absorb_loss wfSmallCfg (-5)).layers.getD 0 dLayer).remaining_after
      ≠ -5 - ((absorb_loss wfSmallCfg (-5)).layers.getD 0 dLayer).absorbed := by
  decide

-- ── Waterfall lemmas and C6 / C7 ───────────────────────────────────────

theorem chainFrom_getD :
    ∀ (ls : List LayerAbsorption) (r : ℤ), ChainFrom r ls →
      ∀ i, i + 1 < ls.length →
        (ls.getD (i + 1) dLayer).remaining_after
          = (ls.getD i dLayer).remaining_after - (ls.getD (i + 1) dLayer).absorbed := by
  intro ls
  induction ls with
  | nil =>
    intro r _ i hi
    simp at hi
  | cons la rest ih =>
    intro r h i hi
    rcases h with ⟨h1, h2⟩
    match i with
    | 0 =>
      match rest, h2 with
      | lb :: rest', h2 =>
        simpa using h2.1
    | Nat.succ j =>
      have hj : j + 1 < rest.length := by
        simpa using hi
      simpa using ih la.remaining_after h2 j hj

theorem absorbFold_spec :
    ∀ (caps : List (WaterfallLayer × ℤ)), (∀ p ∈ caps, 0 ≤ p.2) →
    ∀ (rem0 : ℤ) (ls0 : List LayerAbsorption), 0 ≤ rem0 → rem0 ≤ i64Max →
    ∃ rem1 added,
      caps.foldl absorbStep (rem0, ls0) = (rem1, ls0 ++ added) ∧
      0 ≤ rem1 ∧ rem1 ≤ rem0 ∧
      (added.map LayerAbsorption.absorbed).sum = rem0 - rem1 ∧
      ChainFrom rem0 added ∧
      added.length = caps.length ∧
      ∀ la ∈ added, 0 ≤ la.absorbed ∧ la.absorbed ≤ la.capacity := by
  intro caps
  induction caps with
  | nil =>
    intro _ rem0 ls0 h0 _
    exact ⟨rem0, [], by simp, h0, le_refl _, by simp, trivial, rfl, by simp⟩
  | cons lc caps ih =>
    intro hc rem0 ls0 h0 hM
    have hcap : 0 ≤ lc.2 := hc lc (List.mem_cons_self _ _)
    set a : ℤ := if rem0 ≤ lc.2 then rem0 else lc.2 with ha
    have ha0 : 0 ≤ a := by
      rw [ha]
      split <;> assumption
    have haR : a ≤ rem0 := by
      rw [ha]
      split
      · exact le_refl _
      · omega
    have hw : wrap64 (rem0 - a) = rem0 - a := by
      refine wrap64_eq_self ?_ ?_
      · have : i64Min ≤ (0 : ℤ) := by decide
        omega
      · omega
    have hstep : absorbStep (rem0, ls0) (lc.1, lc.2)
        = (rem0 - a, ls0 ++ [⟨lc.1, lc.2, a, rem0 - a⟩]) := by
      simp only [absorbStep, ← ha, hw]
    obtain ⟨rem1, added, heq, hr0, hrR, hsum, hchain, hlen, hbnd⟩ :=
      ih (fun p hp => hc p (List.mem_cons_of_mem _ hp)) (rem0 - a)
        (ls0 ++ [⟨lc.1, lc.2, a, rem0 - a⟩]) (by omega) (by omega)
    refine ⟨rem1, ⟨lc.1, lc.2, a, rem0 - a⟩ :: added, ?_, hr0, by omega, ?_, ?_, ?_, ?_⟩
    · calc (lc :: caps).foldl absorbStep (rem0, ls0)
          = caps.foldl absorbStep (absorbStep (rem0, ls0) lc) := by
            rw [List.foldl_cons]
        _ = caps.foldl absorbStep (rem0 - a, ls0 ++ [⟨lc.1, lc.2, a, rem0 - a⟩]) := by
            rw [show absorbStep (rem0, ls0) lc = absorbStep (rem0, ls0) (lc.1, lc.2) from rfl,
              hstep]
        _ = (rem1, (ls0 ++ [⟨lc.1, lc.2, a, rem0 - a⟩]) ++ added) := heq
        _ = (rem1, ls0 ++ ⟨lc.1, lc.2, a, rem0 - a⟩ :: added) := by
            rw [List.append_assoc, List.singleton_append]
    · simp only [List.map_cons, List.sum_cons, hsum]
      ring
    · exact ⟨by simp, hchain⟩
    · simp [hlen]
    · intro la hla
      rcases List.mem_cons.mp hla with h | h
      · subst h
        constructor
        · show (0 : ℤ) ≤ a
          exact ha0
        · show a ≤ lc.2
          rw [ha]
          split <;> omega
      · exact hbnd la h

/-- Claim C6 as amended: for every configuration whose five capacities are
non-negative i64 values and every i64 loss, total_absorbed + shortfall =
max(loss, 0), the absorbed amounts sum to total_absorbed, and each layer's
remaining_after is the previous remaining_after minus its absorbed. -/
theorem C6_waterfall_accounting_amended (cfg : WaterfallConfig) (loss : ℤ)
    (hl1 : i64Min ≤ loss) (hl2 : loss ≤ i64Max)
    (hcap : ∀ p ∈ capacitiesOf cfg, 0 ≤ p.2) :
    (absorb_loss cfg loss).total_absorbed + (absorb_loss cfg loss).shortfall
      = max loss 0 ∧
    ((absorb_loss cfg loss).layers.map LayerAbsorption.absorbed).sum
      = (absorb_loss cfg loss).total_absorbed ∧
    ∀ i, i + 1 < (absorb_loss cfg loss).layers.length →
      ((absorb_loss cfg loss).layers.getD (i + 1) dLayer).remaining_after
        = ((absorb_loss cfg loss).layers.getD i dLayer).remaining_after
          - ((absorb_loss cfg loss).layers.getD (i + 1) dLayer).absorbed := by
  by_cases hl : loss ≤ 0
  · have hz : absorb_loss cfg loss = zero_result cfg loss := by
      simp [absorb_loss, hl]
    rw [hz]
    refine ⟨?_, ?_, ?_⟩
    · simp [zero_result, max_eq_right hl]
    · simp [zero_result, capacitiesOf]
    · intro i hi
      have h4 : i < 4 := by
        simp only [zero_result, capacitiesOf, List.map_cons, List.map_nil,
          List.length_cons, List.length_nil] at hi
        omega
      interval_cases i <;> simp [zero_result, capacitiesOf, dLayer]
  · have hl' : 0 < loss := not_le.mp hl
    obtain ⟨rem1, added, heq, hr0, hrR, hsum, hchain, hlen, hbnd⟩ :=
      absorbFold_spec (capacitiesOf cfg) hcap loss [] (le_of_lt hl') hl2
    rw [List.nil_append] at heq
    have hw : wrap64 (loss - rem1) = loss - rem1 := by
      refine wrap64_eq_self ?_ ?_
      · have : i64Min ≤ (0 : ℤ) := by decide
        omega
      · omega
    have habs : absorb_loss cfg loss
        = ⟨loss, loss - rem1, added, decide (rem1 = 0), rem1,
           waterfall_hash loss (wrap64 (loss - rem1))⟩ := by
      simp only [absorb_loss, if_neg hl, heq, hw]
    rw [habs]
    refine ⟨?_, ?_, ?_⟩
    · simp only [max_eq_left (le_of_lt hl')]
      ring
    · exact hsum
    · intro i hi
      exact chainFrom_getD added loss hchain i hi

/-- Witness for C6 at the small configuration and loss 800. -/
theorem C6_waterfall_accounting_amended_witness :
    (absorb_loss wfSmallCfg 800).total_absorbed
        + (absorb_loss wfSmallCfg 800).shortfall = max 800 0 ∧
    ((absorb_loss wfSmallCfg 800).layers.map LayerAbsorption.absorbed).sum
      = (absorb_loss wfSmallCfg 800).total_absorbed ∧
    ((absorb_loss wfSmallCfg 800).layers.getD 1 dLayer).remaining_after
      = ((absorb_loss wfSmallCfg 800).layers.getD 0 dLayer).remaining_after
        - ((absorb_loss wfSmallCfg 800).layers.getD 1 dLayer).absorbed := by
  have h := C6_waterfall_accounting_amended wfSmallCfg 800 (by decide) (by decide)
    (by decide)
  exact ⟨h.1, h.2.1, h.2.2 0 (by decide)⟩

/-- Claim C7 as amended: for non-negative capacities every layer absorbs
between 0 and its capacity, and the first layer's remaining_after is
max(loss, 0) minus its absorbed amount (the loss actually presented to the
cascade). -/
theorem C7_layer_bounds_amended (cfg : WaterfallConfig) (loss : ℤ)
    (hl1 : i64Min ≤ loss) (hl2 : loss ≤ i64Max)
    (hcap : ∀ p ∈ capacitiesOf cfg, 0 ≤ p.2) :
    (∀ la ∈ (absorb_loss cfg loss).layers,
      0 ≤ la.absorbed ∧ la.absorbed ≤ la.capacity) ∧
    ((absorb_loss cfg loss).layers.getD 0 dLayer).remaining_after
      = max loss 0 - ((absorb_loss cfg loss).layers.getD 0 dLayer).absorbed := by
  by_cases hl : loss ≤ 0
  · have hz : absorb_loss cfg loss = zero_result cfg loss := by
      simp [absorb_loss, hl]
    rw [hz]
    constructor
    · intro la hla
      simp only [zero_result, List.mem_map] at hla
      obtain ⟨lc, hlc, hla⟩ := hla
      subst hla
      exact ⟨le_refl _, hcap lc hlc⟩
    · simp [zero_result, capacitiesOf, max_eq_right hl]
  · have hl' : 0 < loss := not_le.mp hl
    obtain ⟨rem1, added, heq, hr0, hrR, hsum, hchain, hlen, hbnd⟩ :=
      absorbFold_spec (capacitiesOf cfg) hcap loss [] (le_of_lt hl') hl2
    rw [List.nil_append] at heq
    have hlay : (absorb_loss cfg loss).layers = added := by
      simp only [absorb_loss, if_neg hl, heq]
    rw [hlay]
    refine ⟨hbnd, ?_⟩
    match added, hchain, hlen with
    | la :: rest, hchain, _ =>
      simp only [List.getD_cons_zero]
      rw [hchain.1, max_eq_left (le_of_lt hl')]

/-- Witness for C7 at the small configuration and loss 800. -/
theorem C7_layer_bounds_amended_witness :
    (0 ≤ ((absorb_loss wfSmallCfg 800).layers.getD 0 dLayer).absorbed ∧
      ((absorb_loss wfSmallCfg 800).layers.getD 0 dLayer).absorbed
        ≤ ((absorb_loss wfSmallCfg 800).layers.getD 0 dLayer).capacity) ∧
    ((absorb_loss wfSmallCfg 800).layers.getD 0 dLayer).remaining_after
      = max 800 0 - ((absorb_loss wfSmallCfg 800).layers.getD 0 dLayer).absorbed := by
  have h := C7_layer_bounds_amended wfSmallCfg 800 (by decide) (by decide) (by decide)
  exact ⟨h.1 _ (by decide), h.2⟩

-- ── Netting key lemmas and C3 ──────────────────────────────────────────

theorem mem_updateAcc :
    ∀ (s : NettingState) (k : NettingKey) (f : NettingAccumulator → NettingAccumulator),
    ∀ e ∈ updateAcc s k f, e.1 = k ∨ ∃ a, (e.1, a) ∈ s := by
  intro s k f
  induction s with
  | nil =>
    intro e he
    simp only [updateAcc, List.mem_singleton] at he
    subst he
    exact Or.inl rfl
  | cons e₀ rest ih =>
    intro e he
    rw [show updateAcc (e₀ :: rest) k f
        = if e₀.1 = k then (e₀.1, f e₀.2) :: rest
          else (e₀.1, e₀.2) :: updateAcc rest k f from rfl] at he
    by_cases hk : e₀.1 = k
    · rw [if_pos hk] at he
      rcases List.mem_cons.mp he with h | h
      · subst h
        exact Or.inl hk
      · exact Or.inr ⟨e.2, by simpa using List.mem_cons_of_mem e₀ h⟩
    · rw [if_neg hk] at he
      rcases List.mem_cons.mp he with h | h
      · subst h
        exact Or.inr ⟨e₀.2, by simpa using List.mem_cons_self e₀ rest⟩
      · rcases ih e h with h' | ⟨a, ha⟩
        · exact Or.inl h'
        · exact Or.inr ⟨a, List.mem_cons_of_mem e₀ ha⟩

theorem canonical_pair_lt {a b : ℕ} (h : a ≠ b) :
    (canonical_pair a b).1 < (canonical_pair a b).2 := by
  unfold canonical_pair
  split <;> omega

theorem foldl_add_trade_keys :
    ∀ (ts : List Trade) (s : NettingState),
    (∀ t ∈ ts, t.buyer_id ≠ t.seller_id) →
    (∀ e ∈ s, e.1.lo_id < e.1.hi_id) →
    ∀ e ∈ ts.foldl add_trade s, e.1.lo_id < e.1.hi_id := by
  intro ts
  induction ts with
  | nil =>
    intro s _ hs e he
    exact hs e he
  | cons t ts ih =>
    intro s hts hs e he
    rw [List.foldl_cons] at he
    refine ih (add_trade s t) (fun u hu => hts u (List.mem_cons_of_mem t hu)) ?_ e he
    intro e' he'
    rcases mem_updateAcc s _ _ e' he' with h | ⟨a, ha⟩
    · rw [h]
      exact canonical_pair_lt (hts t (List.mem_cons_self t ts))
    · exact hs (e'.1, a) ha

theorem castU64_pos {v : ℤ} (h1 : 0 < v) (h2 : v ≤ (u64Max : ℤ)) :
    0 < castU64 v := by
  unfold castU64
  unfold u64Max at h2
  rw [Int.emod_eq_of_lt (le_of_lt h1) (by push_cast at h2; omega)]
  omega

/-- Claim C3 as amended: if every accumulated trade has distinct buyer and
seller, and no pair accumulator's signed net quantity exceeds u64::MAX in
magnitude, every emitted obligation has positive quantity and distinct
deliverer and receiver.  As stated the claim fails for a buyer = seller
trade (deliverer = receiver) and for |accumulated quantity| > u64::MAX
(the u64 cast can truncate to 0). -/
theorem C3_obligation_invariants_amended (ts : List Trade)
    (hbs : ∀ t ∈ ts, t.buyer_id ≠ t.seller_id)
    (hq : ∀ e ∈ netRun ts, (e.2.net_quantity_signed).natAbs ≤ u64Max) :
    ∀ ob ∈ compute_net (netRun ts),
      0 < ob.net_quantity ∧ ob.deliverer_id ≠ ob.receiver_id := by
  intro ob hob
  rw [compute_net, List.mem_filterMap] at hob
  obtain ⟨e, he, hfe⟩ := hob
  have hkey : e.1.lo_id < e.1.hi_id :=
    foldl_add_trade_keys ts [] hbs (by simp) e he
  have hqe : (e.2.net_quantity_signed).natAbs ≤ u64Max := hq e he
  have hqe' : -(u64Max : ℤ) ≤ e.2.net_quantity_signed
      ∧ e.2.net_quantity_signed ≤ (u64Max : ℤ) := by
    omega
  by_cases h0 : e.2.net_quantity_signed = 0
  · simp [h0] at hfe
  · by_cases hpos : 0 < e.2.net_quantity_signed
    · simp only [h0, if_false, hpos, if_true] at hfe
      injection hfe with hfe
      rw [← hfe]
      refine ⟨castU64_pos hpos hqe'.2, ?_⟩
      exact Ne.symm (Nat.ne_of_lt hkey)
    · have hneg : 0 < -e.2.net_quantity_signed := by omega
      simp only [h0, if_false, hpos, if_true] at hfe
      injection hfe with hfe
      rw [← hfe]
      have hw : wrap128 (-e.2.net_quantity_signed) = -e.2.net_quantity_signed := by
        refine wrap128_eq_self (by unfold u64Max at hqe'; push_cast at hqe'; omega)
          (by unfold u64Max at hqe'; push_cast at hqe'; omega)
      show 0 < castU64 (wrap128 (-e.2.net_quantity_signed)) ∧ e.1.lo_id ≠ e.1.hi_id
      rw [hw]
      refine ⟨castU64_pos hneg (by omega), ?_⟩
      exact Nat.ne_of_lt hkey

/-- Witness for C3 on the single-trade scenario. -/
theorem C3_obligation_invariants_amended_witness :
    0 < ((compute_net (netRun [⟨1, 43981, 100, 200, 500, 10, 0, .Pending⟩])).getD 0
        dOb).net_quantity ∧
    ((compute_net (netRun [⟨1, 43981, 100, 200, 500, 10, 0, .Pending⟩])).getD 0
        dOb).deliverer_id
      ≠ ((compute_net (netRun [⟨1, 43981, 100, 200, 500, 10, 0, .Pending⟩])).getD 0
        dOb).receiver_id :=
  C3_obligation_invariants_amended [⟨1, 43981, 100, 200, 500, 10, 0, .Pending⟩]
    (by decide) (by decide) _ (by decide)

-- ── Payment conservation lemmas and C1 ─────────────────────────────────

theorem statePaySum_cons (a : ℕ) (e : NettingKey × NettingAccumulator)
    (rest : NettingState) :
    statePaySum a (e :: rest) = accContrib a e.1 e.2 + statePaySum a rest := by
  simp [statePaySum]

theorem accContrib_default (a : ℕ) (k : NettingKey) :
    accContrib a k defaultAccumulator = 0 := by
  simp [accContrib, defaultAccumulator]

theorem statePaySum_updateAcc (a : ℕ) :
    ∀ (s : NettingState) (k : NettingKey) (f : NettingAccumulator → NettingAccumulator),
    statePaySum a (updateAcc s k f)
      = statePaySum a s + accContrib a k (f (lookupAcc s k))
        - accContrib a k (lookupAcc s k) := by
  intro s
  induction s with
  | nil =>
    intro k f
    simp only [updateAcc, lookupAcc, accContrib_default]
    rw [statePaySum_cons]
    simp [statePaySum]
  | cons e rest ih =>
    intro k f
    rw [show updateAcc (e :: rest) k f
        = if e.1 = k then (e.1, f e.2) :: rest
          else (e.1, e.2) :: updateAcc rest k f from rfl,
      show lookupAcc (e :: rest) k = if e.1 = k then e.2 else lookupAcc rest k from rfl]
    by_cases hk : e.1 = k
    · subst hk
      rw [if_pos rfl, if_pos rfl, statePaySum_cons, statePaySum_cons]
      ring
    · rw [if_neg hk, if_neg hk, statePaySum_cons, statePaySum_cons, ih]
      ring

theorem contrib_delta (a lo hi : ℕ) (pay P : ℤ) :
    ((if lo = a then pay + P else 0) - (if hi = a then pay + P else 0))
      - ((if lo = a then pay else 0) - (if hi = a then pay else 0))
    = (if lo = a then P else 0) - (if hi = a then P else 0) := by
  by_cases h1 : lo = a <;> by_cases h2 : hi = a <;> simp [h1, h2] <;> ring

theorem accContrib_add (a : ℕ) (k : NettingKey) (x y : NettingAccumulator)
    (d : ℤ) (hy : y.net_payment_signed = x.net_payment_signed + d) :
    accContrib a k y - accContrib a k x
      = (if k.lo_id = a then d else 0) - (if k.hi_id = a then d else 0) := by
  unfold accContrib
  rw [hy]
  by_cases h1 : k.lo_id = a <;> by_cases h2 : k.hi_id = a <;> simp [h1, h2] <;> ring

theorem tradeUpdate_pay_pos (t : Trade) (acc₀ : NettingAccumulator)
    (hb : t.buyer_id = (canonical_pair t.buyer_id t.seller_id).1) :
    (tradeUpdate t acc₀).net_payment_signed
      = wrap128 (acc₀.net_payment_signed + wrap128 (t.price * (t.quantity : ℤ))) := by
  unfold tradeUpdate
  rw [if_pos hb]

theorem tradeUpdate_pay_neg (t : Trade) (acc₀ : NettingAccumulator)
    (hb : ¬ t.buyer_id = (canonical_pair t.buyer_id t.seller_id).1) :
    (tradeUpdate t acc₀).net_payment_signed
      = wrap128 (acc₀.net_payment_signed - wrap128 (t.price * (t.quantity : ℤ))) := by
  unfold tradeUpdate
  rw [if_neg hb]

theorem flow_eq_pos {b se a : ℕ} (P : ℤ)
    (hb : b = (canonical_pair b se).1) :
    (if (canonical_pair b se).1 = a then P else 0)
      - (if (canonical_pair b se).2 = a then P else 0)
    = (if b = a then P else 0) - (if se = a then P else 0) := by
  unfold canonical_pair at hb ⊢
  by_cases hle : b ≤ se
  · rw [if_pos hle]
  · rw [if_neg hle] at hb ⊢
    simp only at hb
    rw [hb]

theorem flow_eq_neg {b se a : ℕ} (P : ℤ)
    (hb : ¬ b = (canonical_pair b se).1) :
    (if (canonical_pair b se).1 = a then -P else 0)
      - (if (canonical_pair b se).2 = a then -P else 0)
    = (if b = a then P else 0) - (if se = a then P else 0) := by
  unfold canonical_pair at hb ⊢
  by_cases hle : b ≤ se
  · rw [if_pos hle] at hb
    simp at hb
  · rw [if_neg hle] at hb ⊢
    by_cases h1 : se = a <;> by_cases h2 : b = a <;> simp [h1, h2] <;> ring

theorem statePaySum_add_trade (a : ℕ) (s : NettingState) (t : Trade)
    (hr : stepInRange s t = true) :
    statePaySum a (add_trade s t) = statePaySum a s + signed_payment_trade a t := by
  unfold stepInRange at hr
  simp only [Bool.and_eq_true] at hr
  obtain ⟨h1, h23⟩ := hr
  have hP : wrap128 (t.price * (t.quantity : ℤ)) = t.price * (t.quantity : ℤ) :=
    wrap128_eq_self (inI128_bounds h1).1 (inI128_bounds h1).2
  simp only [add_trade]
  rw [statePaySum_updateAcc, add_sub_assoc]
  congr 1
  by_cases hb : t.buyer_id = (canonical_pair t.buyer_id t.seller_id).1
  · rw [if_pos hb, Bool.and_eq_true] at h23
    have hw := wrap128_eq_self (inI128_bounds h23.2).1 (inI128_bounds h23.2).2
    rw [accContrib_add a _ _ _ (t.price * (t.quantity : ℤ))
      (by rw [tradeUpdate_pay_pos t _ hb, hP, hw])]
    show (if (canonical_pair t.buyer_id t.seller_id).1 = a
        then t.price * (t.quantity : ℤ) else 0)
      - (if (canonical_pair t.buyer_id t.seller_id).2 = a
        then t.price * (t.quantity : ℤ) else 0) = signed_payment_trade a t
    rw [flow_eq_pos _ hb]
    rfl
  · rw [if_neg hb, Bool.and_eq_true] at h23
    have hw := wrap128_eq_self (inI128_bounds h23.2).1 (inI128_bounds h23.2).2
    rw [accContrib_add a _ _ _ (-(t.price * (t.quantity : ℤ)))
      (by rw [tradeUpdate_pay_neg t _ hb, hP, hw]; ring)]
    show (if (canonical_pair t.buyer_id t.seller_id).1 = a
        then -(t.price * (t.quantity : ℤ)) else 0)
      - (if (canonical_pair t.buyer_id t.seller_id).2 = a
        then -(t.price * (t.quantity : ℤ)) else 0) = signed_payment_trade a t
    rw [flow_eq_neg _ hb]
    rfl

theorem statePaySum_foldl (a : ℕ) :
    ∀ (ts : List Trade) (s : NettingState), noAccOverflow s ts = true →
    statePaySum a (ts.foldl add_trade s) = statePaySum a s + tradePaySum a ts := by
  intro ts
  induction ts with
  | nil =>
    intro s _
    simp [tradePaySum]
  | cons t ts ih =>
    intro s hov
    unfold noAccOverflow at hov
    simp only [Bool.and_eq_true] at hov
    rw [List.foldl_cons, ih (add_trade s t) hov.2, statePaySum_add_trade a s t hov.1]
    unfold tradePaySum
    simp only [List.map_cons, List.sum_cons]
    ring

theorem obPaySum_compute_net (a : ℕ) :
    ∀ (s : NettingState),
    (∀ e ∈ s, (e.2.net_quantity_signed = 0 → e.2.net_payment_signed = 0)
        ∧ (e.2.net_payment_signed).natAbs ≤ 2 ^ 63 - 1) →
    obPaySum a (compute_net s) = statePaySum a s := by
  intro s
  induction s with
  | nil =>
    intro _
    simp [obPaySum, compute_net, statePaySum]
  | cons e rest ih =>
    intro h
    have he := h e (List.mem_cons_self e rest)
    have hrest := fun u hu => h u (List.mem_cons_of_mem e hu)
    have hbound : -(2 ^ 63 - 1 : ℤ) ≤ e.2.net_payment_signed
        ∧ e.2.net_payment_signed ≤ 2 ^ 63 - 1 := by
      have := he.2
      omega
    rw [statePaySum_cons]
    by_cases h0 : e.2.net_quantity_signed = 0
    · have hp0 : e.2.net_payment_signed = 0 := he.1 h0
      have : compute_net (e :: rest) = compute_net rest := by
        simp [compute_net, List.filterMap_cons, h0]
      rw [this, ih hrest]
      simp [accContrib, hp0]
    · by_cases hpos : 0 < e.2.net_quantity_signed
      · have : compute_net (e :: rest)
            = ⟨e.1.symbol_hash, e.1.hi_id, e.1.lo_id,
                castU64 e.2.net_quantity_signed,
                saturating_i128_to_i64 e.2.net_payment_signed,
                e.2.trade_count⟩ :: compute_net rest := by
          simp [compute_net, List.filterMap_cons, h0, hpos]
        rw [this]
        unfold obPaySum at ih ⊢
        simp only [List.map_cons, List.sum_cons]
        rw [ih hrest]
        have hs : saturating_i128_to_i64 e.2.net_payment_signed
            = e.2.net_payment_signed := by
          refine sat64_eq_self ?_ ?_
          · unfold i64Min
            omega
          · unfold i64Max
            omega
        simp only [signed_payment_ob, accContrib, hs]
      · have : compute_net (e :: rest)
            = ⟨e.1.symbol_hash, e.1.lo_id, e.1.hi_id,
                castU64 (wrap128 (-e.2.net_quantity_signed)),
                saturating_i128_to_i64 (wrap128 (-e.2.net_payment_signed)),
                e.2.trade_count⟩ :: compute_net rest := by
          simp [compute_net, List.filterMap_cons, h0, hpos]
        rw [this]
        unfold obPaySum at ih ⊢
        simp only [List.map_cons, List.sum_cons]
        rw [ih hrest]
        have hw : wrap128 (-e.2.net_payment_signed) = -e.2.net_payment_signed := by
          refine wrap128_eq_self ?_ ?_ <;> omega
        have hs : saturating_i128_to_i64 (-e.2.net_payment_signed)
            = -e.2.net_payment_signed := by
          refine sat64_eq_self ?_ ?_
          · unfold i64Min
            omega
          · unfold i64Max
            omega
        rw [hw, hs]
        simp only [signed_payment_ob, accContrib]
        by_cases h1a : e.1.lo_id = a <;> by_cases h2a : e.1.hi_id = a <;>
          simp [h1a, h2a] <;> ring

/-- Claim C1 as amended: the per-account signed payment sum is conserved
by compute_net provided no accumulation step overflows i128, every pair
accumulator whose signed net quantity is zero also has zero signed net
payment, and no accumulator's payment exceeds i64::MAX in magnitude (no
saturation at emission).  As stated the claim fails: a pair whose
quantities offset exactly but whose payments do not is skipped entirely
and its payment sum is lost. -/
theorem C1_netting_conservation_amended (ts : List Trade) (a : ℕ)
    (hov : noAccOverflow [] ts = true)
    (hzero : ∀ e ∈ netRun ts,
      e.2.net_quantity_signed = 0 → e.2.net_payment_signed = 0)
    (hsat : ∀ e ∈ netRun ts, (e.2.net_payment_signed).natAbs ≤ 2 ^ 63 - 1) :
    obPaySum a (compute_net (netRun ts)) = tradePaySum a ts := by
  rw [obPaySum_compute_net a (netRun ts) (fun e he => ⟨hzero e he, hsat e he⟩)]
  unfold netRun
  rw [statePaySum_foldl a ts [] hov]
  simp [statePaySum]

/-- Witness for C1 on the bilateral-offset scenario. -/
theorem C1_netting_conservation_amended_witness :
    obPaySum 100 (compute_net (netRun
        [⟨1, 43981, 100, 200, 100, 100, 0, .Pending⟩,
         ⟨2, 43981, 200, 100, 120, 30, 0, .Pending⟩]))
      = tradePaySum 100
        [⟨1, 43981, 100, 200, 100, 100, 0, .Pending⟩,
         ⟨2, 43981, 200, 100, 120, 30, 0, .Pending⟩] :=
  C1_netting_conservation_amended
    [⟨1, 43981, 100, 200, 100, 100, 0, .Pending⟩,
     ⟨2, 43981, 200, 100, 120, 30, 0, .Pending⟩] 100
    (by decide) (by decide) (by decide)

-- ── Multilateral netting lemmas and C2 ─────────────────────────────────

theorem tryEdges_some {es : List (ℕ × ℕ)} {rec : ℕ → Option (List ℕ)} {l : List ℕ} :
    tryEdges es rec = some l →
    ∃ next i l', (next, i) ∈ es ∧ rec next = some l' ∧ l = i :: l' := by
  induction es with
  | nil =>
    intro h
    simp [tryEdges] at h
  | cons e rest ih =>
    intro h
    rw [show tryEdges (e :: rest) rec
        = match rec e.1 with
          | some l' => some (e.2 :: l')
          | none => tryEdges rest rec from rfl] at h
    rcases hr : rec e.1 with _ | l'
    · rw [hr] at h
      obtain ⟨next, i, l', hmem, hrec, hl⟩ := ih h
      exact ⟨next, i, l', List.mem_cons_of_mem e hmem, hrec, hl⟩
    · rw [hr] at h
      injection h with h
      exact ⟨e.1, e.2, l', by simp, hr, h.symm⟩

theorem dfs_some (adj : Adj) (target : ℕ) :
    ∀ (fuel : ℕ) (visited : List ℕ) (current : ℕ) (is_start : Bool) (l : List ℕ),
    dfs_find_cycle adj target fuel visited current is_start = some l →
    ∃ ns, AdjChain adj target current l ns ∧ ns.Nodup ∧ ∀ n ∈ ns, n ∉ visited := by
  intro fuel
  induction fuel with
  | zero =>
    intro visited current is_start l h
    simp [dfs_find_cycle] at h
  | succ fuel ih =>
    intro visited current is_start l h
    rw [dfs_find_cycle] at h
    by_cases ht : is_start = false ∧ current = target
    · rw [if_pos ht] at h
      injection h with h
      subst h
      exact ⟨[], ht.2 ▸ AdjChain.nil, List.nodup_nil, by simp⟩
    · rw [if_neg ht] at h
      by_cases hv : current ∈ visited
      · rw [if_pos hv] at h
        exact absurd h (by simp)
      · rw [if_neg hv] at h
        obtain ⟨next, i, l', hmem, hrec, hl⟩ := tryEdges_some h
        obtain ⟨ns', hchain, hnd, hvis⟩ := ih (current :: visited) next false l' hrec
        refine ⟨current :: ns', hl ▸ AdjChain.cons hmem hchain, ?_, ?_⟩
        · refine List.nodup_cons.mpr ⟨?_, hnd⟩
          intro hc
          exact (hvis current hc) (List.mem_cons_self _ _)
        · intro n hn
          rcases List.mem_cons.mp hn with h' | h'
          · subst h'
            exact hv
          · intro hcon
            exact (hvis n h') (List.mem_cons_of_mem _ hcon)

theorem tryStarts_some (adj : Adj) (fuel : ℕ) :
    ∀ (starts : List ℕ) (l : List ℕ), tryStarts adj fuel starts = some l →
    ∃ start, dfs_find_cycle adj start fuel [] start true = some l := by
  intro starts
  induction starts with
  | nil =>
    intro l h
    simp [tryStarts] at h
  | cons st rest ih =>
    intro l h
    rw [show tryStarts adj fuel (st :: rest)
        = match dfs_find_cycle adj st fuel [] st true with
          | some l => some l
          | none => tryStarts adj fuel rest from rfl] at h
    rcases hd : dfs_find_cycle adj st fuel [] st true with _ | l'
    · rw [hd] at h
      exact ih l h
    · rw [hd] at h
      injection h with h
      exact ⟨st, h ▸ hd⟩

theorem dfs_start_ne_nil (adj : Adj) (fuel : ℕ) (start : ℕ) (l : List ℕ)
    (h : dfs_find_cycle adj start fuel [] start true = some l) : l ≠ [] := by
  match fuel with
  | 0 =>
    simp [dfs_find_cycle] at h
  | fuel + 1 =>
    rw [dfs_find_cycle] at h
    rw [if_neg (by simp)] at h
    rw [if_neg (by simp)] at h
    obtain ⟨next, i, l', _, _, hl⟩ := tryEdges_some h
    rw [hl]
    simp

theorem lookupAdj_adjPush (adj : Adj) (d : ℕ) (e : ℕ × ℕ) :
    ∀ (c : ℕ) (x : ℕ × ℕ), x ∈ lookupAdj (adjPush adj d e) c →
      x ∈ lookupAdj adj c ∨ (c = d ∧ x = e) := by
  induction adj with
  | nil =>
    intro c x hx
    rw [show adjPush [] d e = [(d, [e])] from rfl,
      show lookupAdj [(d, [e])] c = if d = c then [e] else [] from rfl] at hx
    by_cases hdc : d = c
    · rw [if_pos hdc] at hx
      exact Or.inr ⟨hdc.symm, by simpa using hx⟩
    · rw [if_neg hdc] at hx
      simp at hx
  | cons p rest ih =>
    intro c x hx
    rw [show adjPush (p :: rest) d e
        = if p.1 = d then (p.1, p.2 ++ [e]) :: rest
          else (p.1, p.2) :: adjPush rest d e from rfl] at hx
    by_cases hpd : p.1 = d
    · rw [if_pos hpd,
        show lookupAdj ((p.1, p.2 ++ [e]) :: rest) c
          = if p.1 = c then p.2 ++ [e] else lookupAdj rest c from rfl] at hx
      by_cases hpc : p.1 = c
      · rw [if_pos hpc] at hx
        rcases List.mem_append.mp hx with h | h
        · left
          rw [show lookupAdj (p :: rest) c
            = if p.1 = c then p.2 else lookupAdj rest c from rfl, if_pos hpc]
          exact h
        · exact Or.inr ⟨hpc.symm.trans hpd, by simpa using h⟩
      · rw [if_neg hpc] at hx
        left
        rw [show lookupAdj (p :: rest) c
          = if p.1 = c then p.2 else lookupAdj rest c from rfl, if_neg hpc]
        exact hx
    · rw [if_neg hpd,
        show lookupAdj ((p.1, p.2) :: adjPush rest d e) c
          = if p.1 = c then p.2 else lookupAdj (adjPush rest d e) c from rfl] at hx
      by_cases hpc : p.1 = c
      · rw [if_pos hpc] at hx
        left
        rw [show lookupAdj (p :: rest) c
          = if p.1 = c then p.2 else lookupAdj rest c from rfl, if_pos hpc]
        exact hx
      · rw [if_neg hpc] at hx
        rcases ih c x hx with h | h
        · left
          rw [show lookupAdj (p :: rest) c
            = if p.1 = c then p.2 else lookupAdj rest c from rfl, if_neg hpc]
          exact h
        · exact Or.inr h

theorem getD_of_drop (full : List NetObligation) :
    ∀ (i : ℕ) (ob : NetObligation) (rest : List NetObligation),
    full.drop i = ob :: rest →
    full.getD i dOb = ob ∧ full.drop (i + 1) = rest ∧ i < full.length := by
  induction full with
  | nil =>
    intro i ob rest h
    simp at h
  | cons x xs ih =>
    intro i ob rest h
    match i with
    | 0 =>
      simp only [List.drop_zero] at h
      injection h with h1 h2
      subst h1
      subst h2
      exact ⟨rfl, by simp, by simp⟩
    | Nat.succ j =>
      have h' : xs.drop j = ob :: rest := h
      obtain ⟨hg, hd, hl⟩ := ih j ob rest h'
      exact ⟨hg, hd, by simpa using Nat.succ_lt_succ hl⟩

theorem buildAdjAux_sound (full : List NetObligation) :
    ∀ (obs : List NetObligation) (i : ℕ) (adj : Adj),
    full.drop i = obs →
    (∀ c x, x ∈ lookupAdj adj c → EdgeSpec full c x.1 x.2) →
    ∀ c x, x ∈ lookupAdj (buildAdjAux i obs adj) c → EdgeSpec full c x.1 x.2 := by
  intro obs
  induction obs with
  | nil =>
    intro i adj _ hadj c x hx
    exact hadj c x hx
  | cons ob rest ih =>
    intro i adj hdrop hadj c x hx
    rw [show buildAdjAux i (ob :: rest) adj
        = buildAdjAux (i + 1) rest
          (if 0 < ob.net_quantity then adjPush adj ob.deliverer_id (ob.receiver_id, i)
           else adj) from rfl] at hx
    obtain ⟨hget, hdrop', hlen⟩ := getD_of_drop full i ob rest hdrop
    refine ih (i + 1) _ hdrop' ?_ c x hx
    intro c' x' hx'
    by_cases hq : 0 < ob.net_quantity
    · rw [if_pos hq] at hx'
      rcases lookupAdj_adjPush adj _ _ c' x' hx' with h | ⟨hc, hxe⟩
      · exact hadj c' x' h
      · subst hc
        subst hxe
        exact ⟨hlen, by rw [hget]; exact hq, by rw [hget], by rw [hget]⟩
    · rw [if_neg hq] at hx'
      exact hadj c' x' hx'

theorem buildAdj_sound (obs : List NetObligation) :
    ∀ c x, x ∈ lookupAdj (buildAdj obs) c → EdgeSpec obs c x.1 x.2 :=
  buildAdjAux_sound obs obs 0 [] (by simp)
    (fun c x hx => by simp [lookupAdj] at hx)

theorem chain_edges (obs : List NetObligation) (target : ℕ) :
    ∀ {c : ℕ} {l ns : List ℕ}, AdjChain (buildAdj obs) target c l ns →
    (∀ j ∈ l, j < obs.length ∧ 0 < (obs.getD j dOb).net_quantity) ∧
    ns = l.map (fun j => (obs.getD j dOb).deliverer_id) ∧
    ∀ a, (l.map fun j => unitFlow a (obs.getD j dOb)).sum
      = (if target = a then (1 : ℤ) else 0) - (if c = a then 1 else 0) := by
  intro c l ns h
  induction h with
  | nil =>
    refine ⟨by simp, by simp, fun a => by simp⟩
  | @cons c next i l ns hmem hchain ih =>
    obtain ⟨hlen, hq, hdel, hrec⟩ := buildAdj_sound obs c (next, i) hmem
    obtain ⟨ihb, ihns, ihflow⟩ := ih
    refine ⟨?_, ?_, ?_⟩
    · intro j hj
      rcases List.mem_cons.mp hj with h' | h'
      · subst h'
        exact ⟨hlen, hq⟩
      · exact ihb j h'
    · rw [List.map_cons, ← ihns, hdel]
    · intro a
      rw [List.map_cons, List.sum_cons, ihflow a]
      unfold unitFlow
      rw [hdel, hrec]
      ring

theorem find_cycle_spec (obs : List NetObligation) (l : List ℕ)
    (h : find_cycle obs = some l) :
    l ≠ [] ∧ l.Nodup ∧
    (∀ j ∈ l, j < obs.length ∧ 0 < (obs.getD j dOb).net_quantity) ∧
    ∀ a, (l.map fun j => unitFlow a (obs.getD j dOb)).sum = 0 := by
  unfold find_cycle at h
  obtain ⟨start, hd⟩ := tryStarts_some _ _ _ l h
  have hne := dfs_start_ne_nil _ _ _ _ hd
  obtain ⟨ns, hchain, hnd, _⟩ := dfs_some _ _ _ _ _ _ _ hd
  obtain ⟨hb, hns, hflow⟩ := chain_edges obs start hchain
  refine ⟨hne, ?_, hb, ?_⟩
  · rw [hns] at hnd
    exact hnd.of_map
  · intro a
    rw [hflow a]
    ring

theorem listMin_eq_none : ∀ (xs : List ℕ), listMin xs = none ↔ xs = [] := by
  intro xs
  match xs with
  | [] => simp [listMin]
  | x :: rest =>
    constructor
    · intro h
      rw [show listMin (x :: rest)
          = match listMin rest with
            | none => some x
            | some m => some (min x m) from rfl] at h
      rcases hm : listMin rest with _ | m <;> rw [hm] at h <;> simp at h
    · intro h
      simp at h

theorem listMin_le :
    ∀ (xs : List ℕ) (m : ℕ), listMin xs = some m → ∀ x ∈ xs, m ≤ x := by
  intro xs
  induction xs with
  | nil =>
    intro m h
    simp [listMin] at h
  | cons x rest ih =>
    intro m h y hy
    rw [show listMin (x :: rest)
        = match listMin rest with
          | none => some x
          | some m => some (min x m) from rfl] at h
    rcases hm : listMin rest with _ | m'
    · rw [hm] at h
      injection h with h
      subst h
      rcases List.mem_cons.mp hy with h' | h'
      · omega
      · rw [(listMin_eq_none rest).mp hm] at h'
        simp at h'
    · rw [hm] at h
      injection h with h
      subst h
      rcases List.mem_cons.mp hy with h' | h'
      · omega
      · exact le_trans (min_le_right x m') (ih m' hm y h')

theorem sum_map_set (f : NetObligation → ℤ) :
    ∀ (l : List NetObligation) (i : ℕ) (v : NetObligation), i < l.length →
    ((l.set i v).map f).sum = (l.map f).sum + f v - f (l.getD i dOb) := by
  intro l
  induction l with
  | nil =>
    intro i v hi
    simp at hi
  | cons x xs ih =>
    intro i v hi
    match i with
    | 0 =>
      simp only [List.set, List.map_cons, List.sum_cons, List.getD_cons_zero]
      ring
    | Nat.succ j =>
      have hj : j < xs.length := by simpa using hi
      simp only [List.set, List.map_cons, List.sum_cons, List.getD_cons_succ]
      rw [ih j v hj]
      ring

theorem getD_set_ne :
    ∀ (l : List NetObligation) (i j : ℕ) (v : NetObligation), i ≠ j →
    (l.set i v).getD j dOb = l.getD j dOb := by
  intro l
  induction l with
  | nil =>
    intro i j v _
    simp [List.set]
  | cons x xs ih =>
    intro i j v hij
    match i, j with
    | 0, 0 => omega
    | 0, Nat.succ j' => simp [List.set]
    | Nat.succ i', 0 => simp [List.set]
    | Nat.succ i', Nat.succ j' =>
      simp only [List.set, List.getD_cons_succ]
      exact ih i' j' v (by omega)

theorem map_congr_mem {α β : Type} (l : List α) (f g : α → β)
    (h : ∀ x ∈ l, f x = g x) : l.map f = l.map g := by
  induction l with
  | nil => rfl
  | cons x xs ih =>
    simp only [List.map_cons]
    rw [h x (List.mem_cons_self x xs), ih fun y hy => h y (List.mem_cons_of_mem x hy)]

theorem sum_map_mul (c : ℤ) (g : ℕ → ℤ) :
    ∀ (l : List ℕ), (l.map fun j => c * g j).sum = c * (l.map g).sum := by
  intro l
  induction l with
  | nil => simp
  | cons x xs ih =>
    simp only [List.map_cons, List.sum_cons, ih]
    ring

theorem cancel_fold (m : ℕ) (f : NetObligation → ℤ) :
    ∀ (idxs : List ℕ) (obs : List NetObligation),
    idxs.Nodup → (∀ i ∈ idxs, i < obs.length) →
    ((idxs.foldl (fun cur i => cur.set i (reduceOb m (cur.getD i dOb))) obs).map f).sum
      = (obs.map f).sum
        + (idxs.map fun i => f (reduceOb m (obs.getD i dOb)) - f (obs.getD i dOb)).sum := by
  intro idxs
  induction idxs with
  | nil =>
    intro obs _ _
    simp
  | cons i rest ih =>
    intro obs hnd hbound
    rw [List.foldl_cons]
    have hmem : i < obs.length := hbound i (List.mem_cons_self i rest)
    have hnotin : i ∉ rest := (List.nodup_cons.mp hnd).1
    rw [ih (obs.set i (reduceOb m (obs.getD i dOb))) (List.nodup_cons.mp hnd).2
      (fun j hj => by
        rw [List.length_set]
        exact hbound j (List.mem_cons_of_mem i hj))]
    rw [sum_map_set f obs i _ hmem]
    have hco : (rest.map fun j =>
          f (reduceOb m ((obs.set i (reduceOb m (obs.getD i dOb))).getD j dOb))
            - f ((obs.set i (reduceOb m (obs.getD i dOb))).getD j dOb))
        = rest.map fun j => f (reduceOb m (obs.getD j dOb)) - f (obs.getD j dOb) := by
      refine map_congr_mem rest _ _ ?_
      intro j hj
      rw [getD_set_ne obs i j _ (fun hij => hnotin (hij ▸ hj))]
    rw [hco]
    simp only [List.map_cons, List.sum_cons]
    ring

theorem cancel_cycle_qty_balance (obs : List NetObligation) (idxs : List ℕ)
    (hnd : idxs.Nodup)
    (hb : ∀ j ∈ idxs, j < obs.length ∧ 0 < (obs.getD j dOb).net_quantity)
    (hflow : ∀ a, (idxs.map fun j => unitFlow a (obs.getD j dOb)).sum = 0) :
    ∀ a, qty_balance a (cancel_cycle obs idxs) = qty_balance a obs := by
  intro a
  unfold cancel_cycle
  by_cases hm0 : (listMin (idxs.map fun i => (obs.getD i dOb).net_quantity)).getD 0 = 0
  · rw [if_pos hm0]
  · rw [if_neg hm0]
    rcases hmm : listMin (idxs.map fun i => (obs.getD i dOb).net_quantity) with _ | m
    · rw [hmm] at hm0
      simp at hm0
    · rw [hmm] at hm0
      simp only [Option.getD_some] at hm0 ⊢
      have hmle : ∀ j ∈ idxs, m ≤ (obs.getD j dOb).net_quantity := by
        intro j hj
        exact listMin_le _ m hmm _ (List.mem_map_of_mem _ hj)
      unfold qty_balance
      rw [cancel_fold m (qtyContrib a) idxs obs hnd (fun j hj => (hb j hj).1)]
      have hterm : ∀ j ∈ idxs,
          qtyContrib a (reduceOb m (obs.getD j dOb)) - qtyContrib a (obs.getD j dOb)
            = -(m : ℤ) * unitFlow a (obs.getD j dOb) := by
        intro j hj
        have hq := (hb j hj).2
        have hle := hmle j hj
        unfold reduceOb qtyContrib unitFlow wrapU64sub
        rw [if_pos hle, if_pos hq]
        by_cases h1 : (obs.getD j dOb).receiver_id = a <;>
          by_cases h2 : (obs.getD j dOb).deliverer_id = a <;>
            simp only [h1, h2, if_true, if_false] <;> push_cast [Nat.cast_sub hle] <;> ring
      rw [map_congr_mem idxs _ _ hterm, sum_map_mul, hflow a]
      ring

theorem cancelLoop_qty_balance :
    ∀ (fuel : ℕ) (obs : List NetObligation) (a : ℕ),
    qty_balance a (cancelLoop fuel obs) = qty_balance a obs := by
  intro fuel
  induction fuel with
  | zero =>
    intro obs a
    rfl
  | succ fuel ih =>
    intro obs a
    rcases hf : find_cycle obs with _ | idxs
    · simp only [cancelLoop, hf]
    · simp only [cancelLoop, hf]
      obtain ⟨_, hnd, hb, hflow⟩ := find_cycle_spec obs idxs hf
      rw [ih, cancel_cycle_qty_balance obs idxs hnd hb hflow a]

theorem qty_balance_filter (a : ℕ) :
    ∀ (obs : List NetObligation),
    qty_balance a (obs.filter fun ob => 0 < ob.net_quantity) = qty_balance a obs := by
  intro obs
  induction obs with
  | nil => rfl
  | cons ob rest ih =>
    by_cases hq : 0 < ob.net_quantity
    · rw [List.filter_cons_of_pos (by simpa using hq)]
      unfold qty_balance at ih ⊢
      simp only [List.map_cons, List.sum_cons]
      rw [ih]
    · rw [List.filter_cons_of_neg (by simpa using hq)]
      have h0 : ob.net_quantity = 0 := by omega
      unfold qty_balance at ih ⊢
      simp only [List.map_cons, List.sum_cons]
      rw [ih]
      simp [qtyContrib, h0]

theorem groupSum_push (f : NetObligation → ℤ) :
    ∀ (g : List (ℕ × List NetObligation)) (sy : ℕ) (ob : NetObligation),
    groupSum f (groupPush g sy ob) = groupSum f g + f ob := by
  intro g
  induction g with
  | nil =>
    intro sy ob
    simp [groupSum, groupPush]
  | cons e rest ih =>
    intro sy ob
    rw [show groupPush (e :: rest) sy ob
        = if e.1 = sy then (e.1, e.2 ++ [ob]) :: rest
          else (e.1, e.2) :: groupPush rest sy ob from rfl]
    by_cases he : e.1 = sy
    · rw [if_pos he]
      simp only [groupSum, List.map_cons, List.sum_cons, List.map_append]
      simp
      ring
    · rw [if_neg he]
      simp only [groupSum, List.map_cons, List.sum_cons] at ih ⊢
      rw [ih]
      ring

theorem groupSum_foldl (f : NetObligation → ℤ) :
    ∀ (obs : List NetObligation) (g : List (ℕ × List NetObligation)),
    groupSum f (obs.foldl (fun g ob => groupPush g ob.symbol_hash ob) g)
      = groupSum f g + (obs.map f).sum := by
  intro obs
  induction obs with
  | nil =>
    intro g
    simp
  | cons ob rest ih =>
    intro g
    rw [List.foldl_cons, ih, groupSum_push]
    simp only [List.map_cons, List.sum_cons]
    ring

/-- Claim C2 as amended: multilateral_net (and hence each cycle
cancellation together with the zero-quantity drop) preserves every
account's net quantity balance: the sum of net_quantity over obligations
where A is receiver minus the sum where A is deliverer is unchanged.  The
net payment balance of the claim as stated is not preserved: the per-edge
proportional payment reductions around a cycle can differ, as the
counterexample shows. -/
theorem C2_multilateral_quantity_balance (obs : List NetObligation) (a : ℕ) :
    qty_balance a (multilateral_net obs) = qty_balance a obs := by
  have hflat : ∀ (L : List (List NetObligation)),
      qty_balance a L.flatten = (L.map fun l => qty_balance a l).sum := by
    intro L
    induction L with
    | nil => rfl
    | cons x xs ih =>
      unfold qty_balance at ih ⊢
      simp only [List.flatten_cons, List.map_append, List.sum_append, List.map_cons,
        List.sum_cons]
      rw [ih]
  unfold multilateral_net
  rw [hflat, List.map_map]
  rw [show ((fun l => qty_balance a l) ∘ fun e : ℕ × List NetObligation =>
        (cancelLoop (sumQty e.2 + 1) e.2).filter fun ob => 0 < ob.net_quantity)
      = fun e : ℕ × List NetObligation =>
        qty_balance a ((cancelLoop (sumQty e.2 + 1) e.2).filter
          fun ob => 0 < ob.net_quantity) from rfl]
  rw [map_congr_mem _ _ (fun e : ℕ × List NetObligation => (e.2.map (qtyContrib a)).sum)
    (fun e _ => by rw [qty_balance_filter, cancelLoop_qty_balance]; rfl)]
  show groupSum (qtyContrib a) (groupBySymbol obs) = qty_balance a obs
  unfold groupBySymbol
  rw [groupSum_foldl]
  simp [groupSum, qty_balance]

end AliceSettlement
